import Mathlib

/-!
# libgitops: the cache in front of a storage, its index, the GVK filter, the file
extensions and the patch engine

A shallow embedding of `pkg/storage/cache/cache.go`, `pkg/storage/cache/index.go`,
`pkg/filter/gvk.go` and `pkg/storage/format.go`, and a model of the patch engine that
`pkg/util/patch/patch_test.go` tests.

* Go maps are association lists with distinct keys (`AList`).  Go leaves the
  iteration order of a map unspecified; the embedding iterates in the order of
  the association list, and no statement below depends on that order.
* The wrapped `storage.Storage` is an interface: it is a record of functions
  over an arbitrary state `σ`.  Every call the cache makes to it is appended to
  a log, so that "the wrapped store is (not) called" can be stated.
* A Go `panic` is the `Outcome.panic` result.
-/

namespace Libgitops

/-! ## Data model -/

/-- The `schema.GroupVersionKind` triple. -/
structure GroupVersionKind where
  Group : String
  Version : String
  Kind : String
deriving DecidableEq, Repr

/-- The rendering `GroupVersionKind.String()` of apimachinery:
`Group + "/" + Version + ", Kind=" + Kind`. -/
def GroupVersionKind.toString (gvk : GroupVersionKind) : String :=
  gvk.Group ++ "/" ++ gvk.Version ++ ", Kind=" ++ gvk.Kind

/-- The `types.UID` of an object (a string). -/
abbrev UID := String

/-- Error values.  `wrap msg cause` is `fmt.Errorf(msg + ": %w", cause)`. -/
inductive Error where
  | notFound
  | alreadyExists
  | invalidParams
  | encodeError
  | decodeError
  | ioError
  | patchError
  | invariantViolation
  | other (msg : String)
  | wrap (msg : String) (cause : Error)
deriving DecidableEq, Repr

/-- What the cache observes of a `runtime.Object`: its type metadata, its UID and
name, and its type-specific state (`body`, empty for a metadata-only object). -/
structure Object where
  gvk : GroupVersionKind
  uid : UID
  name : String
  body : String
deriving DecidableEq, Repr

/-- The value built by `storage.NewObjectKey(kind, runtime.NewIdentifier(id))`. -/
structure ObjectKey where
  gvk : GroupVersionKind
  id : String
deriving DecidableEq, Repr

/-- The values of the `storage.KindKey` interface: a plain kind key
(`storage.NewKindKey`), or an object key, which is a kind key too. -/
inductive KindKey where
  | ofGVK (gvk : GroupVersionKind)
  | ofObjectKey (key : ObjectKey)
deriving DecidableEq, Repr

/-- The method `GetGVK` of a kind key. -/
def KindKey.GetGVK : KindKey → GroupVersionKind
  | .ofGVK gvk => gvk
  | .ofObjectKey key => key.gvk

/-- The constructor `storage.NewKindKey`. -/
def NewKindKey (gvk : GroupVersionKind) : KindKey := .ofGVK gvk

/-- The constructor `storage.NewObjectKey` applied to `runtime.NewIdentifier(id)`. -/
def NewObjectKey (kind : KindKey) (id : String) : ObjectKey := ⟨kind.GetGVK, id⟩

/-- The identifier `string(rune(0))` that `cache.list` puts in the key it hands to
the storage. -/
def zeroIdentifier : String := "\x00"

/-- The result of an operation that can panic. -/
inductive Outcome (α : Type) where
  | ret (a : α)
  | panic (msg : String)
deriving DecidableEq, Repr

/-! ## The wrapped storage -/

/-- A slice of objects, `[]runtime.Object` or `[]runtime.PartialObject`. -/
abbrev Objects := List Object

/-- The methods of `storage.Storage` that the cache calls, over a storage state `σ`.
`Get`, `GetMeta` and `Count` yield a value or an error; `List` and `ListMeta` yield
the Go pair (slice, error), because `cache.list` reads the slice on both paths;
the writes yield the Go `error` (`none` is `nil`). -/
structure Storage (σ : Type) where
  Get : ObjectKey → σ → Except Error Object × σ
  GetMeta : ObjectKey → σ → Except Error Object × σ
  List : KindKey → σ → (Objects × Option Error) × σ
  ListMeta : KindKey → σ → (Objects × Option Error) × σ
  Count : KindKey → σ → Except Error Nat × σ
  Create : Object → σ → Option Error × σ
  Update : Object → σ → Option Error × σ
  Delete : ObjectKey → σ → Option Error × σ

/-- One call of the cache to the wrapped storage; the writes record the error
that the storage returned. -/
inductive Call where
  | Get (key : ObjectKey)
  | GetMeta (key : ObjectKey)
  | List (kind : KindKey)
  | ListMeta (kind : KindKey)
  | Count (kind : KindKey)
  | Create (obj : Object) (err : Option Error)
  | Update (obj : Object) (err : Option Error)
  | Delete (key : ObjectKey) (err : Option Error)
deriving DecidableEq, Repr

/-- Whether a logged call is a `List`. -/
def Call.isList : Call → Bool
  | .List _ => true
  | _ => false

/-- Whether a logged call is a `ListMeta`. -/
def Call.isListMeta : Call → Bool
  | .ListMeta _ => true
  | _ => false

/-- Whether a logged call is a `Get`. -/
def Call.isGet : Call → Bool
  | .Get _ => true
  | _ => false

/-- Whether a logged call is an `Update`. -/
def Call.isUpdate : Call → Bool
  | .Update _ _ => true
  | _ => false

/-! ## Cache entries and the index -/

/-- Modelled from the spec: the type `cacheObject` (`object.go` is not among the
sources).  Spec §3, CacheEntry: it wraps either a full Object or a PartialObject
for one key, plus a flag recording which (`apiType` is true for the metadata-only
form). -/
structure cacheObject where
  object : Object
  apiType : Bool
deriving DecidableEq, Repr

/-- Modelled from the spec: the constructor `newCacheObject` (`object.go` is not
among the sources).  Spec §3: the entry wraps the object and records its form.  The
spec names no failure of it, so it returns no error; `store` keeps the error branch
of the source. -/
def newCacheObject (obj : Object) (apiType : Bool) : Except Error cacheObject :=
  .ok { object := obj, apiType := apiType }

/-- The inner map `map[types.UID]*cacheObject`. -/
abbrev UIDMap := AList (fun _ : UID => cacheObject)

/-- The struct `index`: `objects` is `map[GroupVersionKind]map[UID]*cacheObject`.
(Its field `storage` is the storage of the cache that owns it.) -/
structure index where
  objects : AList (fun _ : GroupVersionKind => UIDMap)

/-- The constructor `newIndex`: an empty map. -/
def newIndex : index := ⟨∅⟩

/-- The entry held for `(gvk, uid)`, if any: `i.objects[gvk][uid]`. -/
def index.entry (i : index) (gvk : GroupVersionKind) (uid : UID) : Option cacheObject :=
  match i.objects.lookup gvk with
  | some uids => uids.lookup uid
  | none => none

/-- The method `index.count`: `uint64(len(i.objects[gvk]))`; the length of a map is
a non-negative `int`, so the conversion changes nothing. -/
def index.count (i : index) (gvk : GroupVersionKind) : Nat :=
  match i.objects.lookup gvk with
  | some uids => uids.entries.length
  | none => 0

/-- The function `store(i, obj, apiType)`: it panics on an empty UID, makes the
inner map of the GVK when it is missing, and assigns `i.objects[gvk][uid] = co`. -/
def store (i : index) (obj : Object) (apiType : Bool) : Outcome (Option Error × index) :=
  if obj.uid = "" then
    .panic "Attempt to cache invalid Object: missing UID"
  else
    match newCacheObject obj apiType with
    | .error err => .ret (some err, i)
    | .ok co =>
      let gvk := co.object.gvk
      let objects := if (i.objects.lookup gvk).isNone then i.objects.insert gvk ∅ else i.objects
      let uids := (objects.lookup gvk).getD ∅
      .ret (none, ⟨objects.insert gvk (uids.insert co.object.uid co)⟩)

/-- The method `index.store`. -/
def index.store (i : index) (obj : Object) : Outcome (Option Error × index) :=
  Libgitops.store i obj false

/-- The method `index.storeMeta`. -/
def index.storeMeta (i : index) (obj : Object) : Outcome (Option Error × index) :=
  Libgitops.store i obj true

/-- The method `index.storeAll`: the loop stops at the first error. -/
def index.storeAll (i : index) : List Object → Outcome (Option Error × index)
  | [] => .ret (none, i)
  | obj :: objs =>
    match i.store obj with
    | .panic msg => .panic msg
    | .ret (some err, i1) => .ret (some err, i1)
    | .ret (none, i1) => index.storeAll i1 objs

/-- The method `index.storeAllMeta`: an object whose `(GVK, UID)` already has an
entry is skipped. -/
def index.storeAllMeta (i : index) : List Object → Outcome (Option Error × index)
  | [] => .ret (none, i)
  | obj :: objs =>
    if (i.entry obj.gvk obj.uid).isSome then
      index.storeAllMeta i objs
    else
      match i.storeMeta obj with
      | .panic msg => .panic msg
      | .ret (some err, i1) => .ret (some err, i1)
      | .ret (none, i1) => index.storeAllMeta i1 objs

/-- The method `index.delete`. -/
def index.delete (i : index) (key : ObjectKey) : index :=
  match i.objects.lookup key.gvk with
  | some uids => ⟨i.objects.insert key.gvk (uids.erase key.id)⟩
  | none => i

/-! ## The cache -/

/-- The struct `cache`: the state of the backing storage and the index; `calls` is
the log of the calls made to the storage (a ghost field). -/
structure cache (σ : Type) where
  storage : σ
  index : index
  calls : List Call

/-- The constructor `NewCache`: an empty index in front of the storage. -/
def NewCache {σ : Type} (backingStorage : σ) : cache σ :=
  { storage := backingStorage, index := newIndex, calls := [] }

/-- The call `c.storage.Get(key)`. -/
def cache.callGet {σ : Type} (S : Storage σ) (key : ObjectKey) (c : cache σ) :
    Except Error Object × cache σ :=
  ((S.Get key c.storage).1,
    { c with storage := (S.Get key c.storage).2, calls := c.calls ++ [Call.Get key] })

/-- The call `c.storage.GetMeta(key)`. -/
def cache.callGetMeta {σ : Type} (S : Storage σ) (key : ObjectKey) (c : cache σ) :
    Except Error Object × cache σ :=
  ((S.GetMeta key c.storage).1,
    { c with storage := (S.GetMeta key c.storage).2, calls := c.calls ++ [Call.GetMeta key] })

/-- The call `c.storage.List(kind)`. -/
def cache.callList {σ : Type} (S : Storage σ) (kind : KindKey) (c : cache σ) :
    (Objects × Option Error) × cache σ :=
  ((S.List kind c.storage).1,
    { c with storage := (S.List kind c.storage).2, calls := c.calls ++ [Call.List kind] })

/-- The call `c.storage.ListMeta(kind)`. -/
def cache.callListMeta {σ : Type} (S : Storage σ) (kind : KindKey) (c : cache σ) :
    (Objects × Option Error) × cache σ :=
  ((S.ListMeta kind c.storage).1,
    { c with storage := (S.ListMeta kind c.storage).2, calls := c.calls ++ [Call.ListMeta kind] })

/-- The call `c.storage.Count(kind)`. -/
def cache.callCount {σ : Type} (S : Storage σ) (kind : KindKey) (c : cache σ) :
    Except Error Nat × cache σ :=
  ((S.Count kind c.storage).1,
    { c with storage := (S.Count kind c.storage).2, calls := c.calls ++ [Call.Count kind] })

/-- The call `c.storage.Create(obj)`. -/
def cache.callCreate {σ : Type} (S : Storage σ) (obj : Object) (c : cache σ) :
    Option Error × cache σ :=
  ((S.Create obj c.storage).1,
    { c with storage := (S.Create obj c.storage).2,
             calls := c.calls ++ [Call.Create obj (S.Create obj c.storage).1] })

/-- The call `c.storage.Update(obj)`. -/
def cache.callUpdate {σ : Type} (S : Storage σ) (obj : Object) (c : cache σ) :
    Option Error × cache σ :=
  ((S.Update obj c.storage).1,
    { c with storage := (S.Update obj c.storage).2,
             calls := c.calls ++ [Call.Update obj (S.Update obj c.storage).1] })

/-- The call `c.storage.Delete(key)`. -/
def cache.callDelete {σ : Type} (S : Storage σ) (key : ObjectKey) (c : cache σ) :
    Option Error × cache σ :=
  ((S.Delete key c.storage).1,
    { c with storage := (S.Delete key c.storage).2,
             calls := c.calls ++ [Call.Delete key (S.Delete key c.storage).1] })

/-- The entry `co` written back to its slot `(gvk, uid)` of the index: an entry is a
pointer in the Go map, so a change of the entry is a change at its slot. -/
def index.put (i : index) (gvk : GroupVersionKind) (uid : UID) (co : cacheObject) : index :=
  ⟨i.objects.insert gvk (((i.objects.lookup gvk).getD ∅).insert uid co)⟩

/-- Modelled from the spec: the method `cacheObject.loadFull` (`object.go` is not
among the sources), for the entry held at the slot `(gvk, uid)`.  Spec §4.5, Get:
return the entry's full form, promoting from the metadata-only form if necessary by
issuing a `Get` against the wrapped store and upgrading the entry; spec §3: the
promotion is never undone.  A failed `Get` leaves the entry as it was. -/
def cacheObject.loadFull {σ : Type} (S : Storage σ) (gvk : GroupVersionKind) (uid : UID)
    (co : cacheObject) (c : cache σ) : Except Error Object × cache σ :=
  if co.apiType then
    match c.callGet S ⟨co.object.gvk, co.object.uid⟩ with
    | (.ok obj, c1) =>
      (.ok obj, { c1 with index := c1.index.put gvk uid { object := obj, apiType := false } })
    | (.error err, c1) => (.error err, c1)
  else
    (.ok co.object, c)

/-- Modelled from the spec: the method `cacheObject.loadAPI` (`object.go` is not
among the sources).  Spec §4.5, ListMeta: the entry is left as it is; spec §3,
PartialObject: what is returned is the projection of the held object on its type and
object metadata, which is the value `listMeta` asserts to be a `PartialObject`. -/
def cacheObject.loadAPI (co : cacheObject) : Except Error Object :=
  .ok { co.object with body := "" }

/-- The method `index.loadByID`: a hit loads the entry in full, a miss is `(nil, nil)`. -/
def index.loadByID {σ : Type} (S : Storage σ) (key : ObjectKey) (c : cache σ) :
    (Option Object × Option Error) × cache σ :=
  match c.index.entry key.gvk key.id with
  | some co =>
    match co.loadFull S key.gvk key.id c with
    | (.ok obj, c1) => ((some obj, none), c1)
    | (.error err, c1) => ((none, some err), c1)
  | none => ((none, none), c)

/-- The loop of the function `list(i, gvk)` over the entries of `i.objects[gvk]`:
the first entry that fails to load ends it with `(nil, err)`. -/
def listLoop {σ : Type} (S : Storage σ) (gvk : GroupVersionKind) :
    List (Sigma fun _ : UID => cacheObject) → Objects → cache σ →
      (Objects × Option Error) × cache σ
  | [], list, c => ((list, none), c)
  | ⟨uid, co⟩ :: rest, list, c =>
    match co.loadFull S gvk uid c with
    | (.error err, c1) => (([], some err), c1)
    | (.ok result, c1) => listLoop S gvk rest (list ++ [result]) c1

/-- The entries of `i.objects[gvk]` (none for a missing GVK). -/
def index.uids (i : index) (gvk : GroupVersionKind) : List (Sigma fun _ : UID => cacheObject) :=
  match i.objects.lookup gvk with
  | some uids => uids.entries
  | none => []

/-- The function `list(i, gvk)`. -/
def list {σ : Type} (S : Storage σ) (gvk : GroupVersionKind) (c : cache σ) :
    (Objects × Option Error) × cache σ :=
  listLoop S gvk (c.index.uids gvk) [] c

/-- The loop of the function `listMeta(i, gvk)`. -/
def listMetaLoop : List (Sigma fun _ : UID => cacheObject) → Objects → Objects × Option Error
  | [], list => (list, none)
  | ⟨_, co⟩ :: rest, list =>
    match co.loadAPI with
    | .error err => ([], some err)
    | .ok result => listMetaLoop rest (list ++ [result])

/-- The function `listMeta(i, gvk)`. -/
def listMeta (i : index) (gvk : GroupVersionKind) : Objects × Option Error :=
  listMetaLoop (i.uids gvk) []

/-- The method `index.list`. -/
def index.list {σ : Type} (S : Storage σ) (kind : KindKey) (c : cache σ) :
    (Objects × Option Error) × cache σ :=
  Libgitops.list S kind.GetGVK c

/-- The method `index.listMeta`. -/
def index.listMeta {σ : Type} (kind : KindKey) (c : cache σ) :
    (Objects × Option Error) × cache σ :=
  (Libgitops.listMeta c.index kind.GetGVK, c)

/-- The second loop of `index.loadAll`, over the GVKs of `i.objects`. -/
def loadAllLoop {σ : Type} (S : Storage σ) :
    List GroupVersionKind → Objects → cache σ → (Objects × Option Error) × cache σ
  | [], all, c => ((all, none), c)
  | gvk :: gvks, all, c =>
    match index.list S (NewKindKey gvk) c with
    | ((objects, none), c1) => loadAllLoop S gvks (all ++ objects) c1
    | ((_, some err), c1) => (([], some err), c1)

/-- The first loop of `index.loadAll`: `size`, the sum of the counts of all GVKs
(the capacity of the slice that is returned). -/
def index.size (i : index) : Nat :=
  (i.objects.keys.map i.count).sum

/-- The method `index.loadAll`. -/
def index.loadAll {σ : Type} (S : Storage σ) (c : cache σ) :
    (Objects × Option Error) × cache σ :=
  loadAllLoop S c.index.objects.keys [] c

/-- The method `cache.Get`, with the Go result `(obj, err)`.  The state that is
returned next to a panic is the state at the panic: the calls made to the storage
until then have happened. -/
def cache.Get {σ : Type} (S : Storage σ) (key : ObjectKey) (c : cache σ) :
    Outcome (Option Object × Option Error) × cache σ :=
  match index.loadByID S key c with
  | ((obj, some err), c1) => (.ret (obj, some err), c1)
  | ((some obj, none), c1) => (.ret (some obj, none), c1)
  | ((none, none), c1) =>
    match c1.callGet S key with
    | (.error err, c2) => (.ret (none, some err), c2)
    | (.ok obj, c2) =>
      match c2.index.store obj with
      | .panic msg => (.panic msg, c2)
      | .ret (err, i) => (.ret (some obj, err), { c2 with index := i })

/-- The method `cache.GetMeta`. -/
def cache.GetMeta {σ : Type} (S : Storage σ) (key : ObjectKey) (c : cache σ) :
    Outcome (Option Object × Option Error) × cache σ :=
  match c.callGetMeta S key with
  | (.error err, c1) => (.ret (none, some err), c1)
  | (.ok obj, c1) =>
    match c1.index.storeMeta obj with
    | .panic msg => (.panic msg, c1)
    | .ret (err, i) => (.ret (some obj, err), { c1 with index := i })

/-- The common handler `cache.list`.  The storage is asked when the counts differ,
and its slice is handed to `csf` under the source's test `err != nil`. -/
def cache.list {σ : Type} (S : Storage σ) (kind : KindKey)
    (slf clf : KindKey → cache σ → (Objects × Option Error) × cache σ)
    (csf : Objects → cache σ → Outcome (Option Error) × cache σ) (c : cache σ) :
    Outcome (Objects × Option Error) × cache σ :=
  match c.callCount S (.ofObjectKey (NewObjectKey kind zeroIdentifier)) with
  | (.error err, c1) => (.ret ([], some err), c1)
  | (.ok storageCount, c1) =>
    if c1.index.count kind.GetGVK ≠ storageCount then
      match slf (.ofObjectKey (NewObjectKey kind zeroIdentifier)) c1 with
      | ((objs, some _), c2) =>
        match csf objs c2 with
        | (.panic msg, c3) => (.panic msg, c3)
        | (.ret err, c3) => (.ret (objs, err), c3)
      | ((objs, none), c2) => (.ret (objs, none), c2)
    else
      match clf (.ofObjectKey (NewObjectKey kind zeroIdentifier)) c1 with
      | (res, c2) => (.ret res, c2)

/-- The common handler `cache.listMeta`. -/
def cache.listMeta {σ : Type} (S : Storage σ) (kind : KindKey)
    (slf clf : KindKey → cache σ → (Objects × Option Error) × cache σ)
    (cmsf : Objects → cache σ → Outcome (Option Error) × cache σ) (c : cache σ) :
    Outcome (Objects × Option Error) × cache σ :=
  match c.callCount S (.ofObjectKey (NewObjectKey kind zeroIdentifier)) with
  | (.error err, c1) => (.ret ([], some err), c1)
  | (.ok storageCount, c1) =>
    if c1.index.count kind.GetGVK ≠ storageCount then
      match slf (NewKindKey kind.GetGVK) c1 with
      | ((objs, some _), c2) =>
        match cmsf objs c2 with
        | (.panic msg, c3) => (.panic msg, c3)
        | (.ret err, c3) => (.ret (objs, err), c3)
      | ((objs, none), c2) => (.ret (objs, none), c2)
    else
      match clf kind c1 with
      | (res, c2) => (.ret res, c2)

/-- The method value `c.index.storeAll`, acting on the index of the cache. -/
def cache.storeAll {σ : Type} (objs : Objects) (c : cache σ) : Outcome (Option Error) × cache σ :=
  match c.index.storeAll objs with
  | .panic msg => (.panic msg, c)
  | .ret (err, i) => (.ret err, { c with index := i })

/-- The method value `c.index.storeAllMeta`, acting on the index of the cache. -/
def cache.storeAllMeta {σ : Type} (objs : Objects) (c : cache σ) :
    Outcome (Option Error) × cache σ :=
  match c.index.storeAllMeta objs with
  | .panic msg => (.panic msg, c)
  | .ret (err, i) => (.ret err, { c with index := i })

/-- The method `cache.List`. -/
def cache.List {σ : Type} (S : Storage σ) (kind : KindKey) (c : cache σ) :
    Outcome (Objects × Option Error) × cache σ :=
  c.list S kind (cache.callList S) (index.list S) cache.storeAll

/-- The method `cache.ListMeta`. -/
def cache.ListMeta {σ : Type} (S : Storage σ) (kind : KindKey) (c : cache σ) :
    Outcome (Objects × Option Error) × cache σ :=
  c.listMeta S kind (cache.callListMeta S) index.listMeta cache.storeAllMeta

/-- The method `cache.Create`: the result of `c.index.store` is dropped. -/
def cache.Create {σ : Type} (S : Storage σ) (obj : Object) (c : cache σ) :
    Outcome (Option Error) × cache σ :=
  match c.index.store obj with
  | .panic msg => (.panic msg, c)
  | .ret (_, i) =>
    match cache.callCreate S obj { c with index := i } with
    | (err, c1) => (.ret err, c1)

/-- The method `cache.Update`: the result of `c.index.store` is dropped. -/
def cache.Update {σ : Type} (S : Storage σ) (obj : Object) (c : cache σ) :
    Outcome (Option Error) × cache σ :=
  match c.index.store obj with
  | .panic msg => (.panic msg, c)
  | .ret (_, i) =>
    match cache.callUpdate S obj { c with index := i } with
    | (err, c1) => (.ret err, c1)

/-- The method `cache.Set`; `gvk` is only logged. -/
def cache.Set {σ : Type} (S : Storage σ) (_gvk : GroupVersionKind) (obj : Object) (c : cache σ) :
    Outcome (Option Error) × cache σ :=
  match c.index.store obj with
  | .panic msg => (.panic msg, c)
  | .ret (some err, i) => (.ret (some err), { c with index := i })
  | .ret (none, i) =>
    match cache.callUpdate S obj { c with index := i } with
    | (err, c1) => (.ret err, c1)

/-- The method `cache.Delete`. -/
def cache.Delete {σ : Type} (S : Storage σ) (key : ObjectKey) (c : cache σ) :
    Option Error × cache σ :=
  cache.callDelete S key { c with index := c.index.delete key }

/-- The loop of `cache.Flush` over the loaded objects. -/
def flushLoop {σ : Type} (S : Storage σ) : Objects → cache σ → Option Error × cache σ
  | [], c => (none, c)
  | obj :: objs, c =>
    match c.callUpdate S obj with
    | (some err, c1) => (some err, c1)
    | (none, c1) => flushLoop S objs c1

/-- The method `cache.Flush`. -/
def cache.Flush {σ : Type} (S : Storage σ) (c : cache σ) : Option Error × cache σ :=
  match index.loadAll S c with
  | ((_, some err), c1) => (some err, c1)
  | ((allObjects, none), c1) => flushLoop S allObjects c1

/-! ## The GVK filter -/

/-- The sentinel `ErrInvalidFilterParams` of the filter package. -/
def ErrInvalidFilterParams : Error := .invalidParams

/-- The struct `GvkFilter`; `Gvk` is a pointer, `none` is `nil`. -/
structure GvkFilter where
  Gvk : Option GroupVersionKind
deriving DecidableEq, Repr

/-- The method `GvkFilter.Filter`. -/
def GvkFilter.Filter (g : GvkFilter) (obj : Object) : Bool × Option Error :=
  match g.Gvk with
  | none => (false, some (.wrap "the GvkFilter.Gvk field must not be nil" ErrInvalidFilterParams))
  | some gvk => (decide (gvk.toString = obj.gvk.toString), none)

/-! ## A storage that is a map from keys to objects -/

/-- The state of the map storage. -/
abbrev MapState := AList (fun _ : ObjectKey => Object)

/-- The key under which the map storage files an object: its GVK and UID
(`cache.ObjectKeyFor`). -/
def ObjectKeyFor (obj : Object) : ObjectKey := ⟨obj.gvk, obj.uid⟩

/-- The objects of one GVK in the map storage. -/
def MapState.ofKind (m : MapState) (gvk : GroupVersionKind) : Objects :=
  (m.entries.filter fun e => decide (e.1.gvk = gvk)).map fun e => e.2

/-- Modelled from the spec: an Object Store (the storage implementations are not
among the sources), as a map from keys to objects.  Spec §4.3: `Get` and `GetMeta`
yield the object (its metadata) or `NotFound`; `Create` fails with `AlreadyExists`
on an occupied key; `Update` and `Delete` fail with `NotFound` on a missing key;
`List`, `ListMeta` and `Count` range over the objects of the resource type. -/
def mapStorage : Storage MapState where
  Get key m :=
    match m.lookup key with
    | some obj => (.ok obj, m)
    | none => (.error .notFound, m)
  GetMeta key m :=
    match m.lookup key with
    | some obj => (.ok { obj with body := "" }, m)
    | none => (.error .notFound, m)
  List kind m := ((m.ofKind kind.GetGVK, none), m)
  ListMeta kind m := (((m.ofKind kind.GetGVK).map fun obj => { obj with body := "" }, none), m)
  Count kind m := (.ok (m.ofKind kind.GetGVK).length, m)
  Create obj m :=
    if (m.lookup (ObjectKeyFor obj)).isSome then (some .alreadyExists, m)
    else (none, m.insert (ObjectKeyFor obj) obj)
  Update obj m :=
    if (m.lookup (ObjectKeyFor obj)).isSome then (none, m.insert (ObjectKeyFor obj) obj)
    else (some .notFound, m)
  Delete key m :=
    if (m.lookup key).isSome then (none, m.erase key)
    else (some .notFound, m)

/-! ## Concrete objects and storages -/

/-- The GVK of the sample `Car` (`patch_test.go`). -/
def carGVK : GroupVersionKind := ⟨"sample-app.weave.works", "v1alpha1", "Car"⟩

/-- The sample `Car` of `patch_test.go`: name `foo`, a UID, and a spec. -/
def car : Object := ⟨carGVK, "0123456789101112", "foo", "engine=foo,brand=bar"⟩

/-- The metadata-only form of the sample `Car`. -/
def carMeta : Object := { car with body := "" }

/-- The sample `Car` without a UID. -/
def carNoUID : Object := { car with uid := "" }

/-- The key of the sample `Car` by UID. -/
def carKey : ObjectKey := ⟨carGVK, "0123456789101112"⟩

/-- The key of the sample `Car` by name, as the sample application builds it
(`runtime.Metav1NameIdentifier`). -/
def carKeyForName : ObjectKey := ⟨carGVK, "foo"⟩

/-- The map storage that holds the sample `Car` under its UID. -/
def oneCar : MapState := (∅ : MapState).insert carKey car

/-- The map storage that holds the sample `Car` under its name. -/
def oneCarByName : MapState := (∅ : MapState).insert carKeyForName car

/-- The map storage that holds the `Car` without UID under the key `carKey`. -/
def oneCarNoUID : MapState := (∅ : MapState).insert carKey carNoUID

/-- A storage of one object per type whose `List` and `ListMeta` fail with `err`
and a nil slice. -/
def failingListStorage (err : Error) : Storage Unit where
  Get _ s := (.error .notFound, s)
  GetMeta _ s := (.error .notFound, s)
  List _ s := (([], some err), s)
  ListMeta _ s := (([], some err), s)
  Count _ s := (.ok 1, s)
  Create _ s := (none, s)
  Update _ s := (none, s)
  Delete _ s := (none, s)

/-- Whether a logged call is a listing call, `List` or `ListMeta`. -/
def Call.isListing (x : Call) : Bool := x.isList || x.isListMeta

/-- The index `i` is the index `i0` after promotions: no entry was added or removed,
an entry is as it was or, when it was in metadata-only form, is now in full form;
the counts are as they were. -/
def index.PromotedFrom (i0 i : index) : Prop :=
  (∀ gvk uid, i0.entry gvk uid = none → i.entry gvk uid = none) ∧
  (∀ gvk uid co, i0.entry gvk uid = some co →
    i.entry gvk uid = some co ∨ (co.apiType = true ∧ ∃ o, i.entry gvk uid = some ⟨o, false⟩)) ∧
  (∀ gvk, i.count gvk = i0.count gvk)

/-- The cache over the storage of one `Car` after `cache.GetMeta` of the `Car`: its
index holds the `Car` in metadata-only form. -/
def cacheWithCarMeta : cache MapState := (cache.GetMeta mapStorage carKey (NewCache oneCar)).2

/-- A GVK whose group holds a slash. -/
def slashGroupGVK : GroupVersionKind := ⟨"a/b", "c", "K"⟩

/-- A GVK whose version holds a slash; its rendering is the one of `slashGroupGVK`. -/
def slashVersionGVK : GroupVersionKind := ⟨"a", "b/c", "K"⟩

/-- The test `errors.Is(err, target)`: `err` is `target` or wraps it (`%w`) at some
depth. -/
def Error.Is (err target : Error) : Bool :=
  if err = target then true
  else
    match err with
    | .wrap _ cause => cause.Is target
    | _ => false

/-! ## File extensions -/

/-- The string type `serializer.ContentType`. -/
abbrev ContentType := String

/-- Modelled from the spec: the constant `serializer.ContentTypeJSON` (the serializer
package is not among the sources); spec §6 names the content type JSON. -/
def ContentTypeJSON : ContentType := "application/json"

/-- Modelled from the spec: the constant `serializer.ContentTypeYAML` (the serializer
package is not among the sources); spec §6 names the content type YAML. -/
def ContentTypeYAML : ContentType := "application/yaml"

/-- The table `ContentTypes`, as the list of its entries in the order of the source
text. -/
def ContentTypes : List (String × ContentType) :=
  [(".json", ContentTypeJSON), (".yaml", ContentTypeYAML), (".yml", ContentTypeYAML)]

/-- The function `extForContentType`.  `order` is the sequence in which
`range ContentTypes` yields the entries of the table: Go leaves it unspecified, so it is
any permutation of `ContentTypes`. -/
def extForContentType (order : List (String × ContentType)) (wanted : ContentType) : String :=
  match order with
  | [] => ""
  | (ext, ct) :: rest => if ct = wanted then ext else extForContentType rest wanted

/-- An iteration order of `ContentTypes` that yields `.yml` first. -/
def ymlFirst : List (String × ContentType) :=
  [(".yml", ContentTypeYAML), (".json", ContentTypeJSON), (".yaml", ContentTypeYAML)]

/-! ## The patch engine -/

mutual
/-- Modelled from the spec: the structured encoding of an object (the patch engine
`patch.go` and the serializer are not among the sources).  Spec §4.4 tells two kinds of
field values apart: objects, which merge field by field, and scalars and arrays, which
are replaced wholesale; a `leaf` is a scalar or an array, held as its text. -/
inductive Json where
  | leaf (lit : String)
  | obj (fields : Fields)
deriving DecidableEq, Repr
/-- The fields of an object, in the order of the encoding. -/
inductive Fields where
  | nil
  | cons (key : String) (value : Json) (rest : Fields)
deriving DecidableEq, Repr
end

/-- The value of the field `k`, if the object has it. -/
def Fields.lookup : Fields → String → Option Json
  | .nil, _ => none
  | .cons key value rest, k => if key = k then some value else rest.lookup k

/-- Whether the object has a field `k`. -/
def Fields.hasKey (fs : Fields) (k : String) : Bool := (fs.lookup k).isSome

/-- One list of fields after another. -/
def Fields.append : Fields → Fields → Fields
  | .nil, gs => gs
  | .cons key value rest, gs => .cons key value (rest.append gs)

/-- The value at a path of field names, if the document reaches that far. -/
def Json.at : Json → List String → Option Json
  | j, [] => some j
  | .obj fs, k :: path =>
    match fs.lookup k with
    | some v => v.at path
    | none => none
  | .leaf _, _ :: _ => none

mutual
/-- Whether every object of the document names each of its fields once. -/
def Json.wf : Json → Bool
  | .leaf _ => true
  | .obj fs => fs.wf
/-- Whether the fields have distinct names and well-formed values. -/
def Fields.wf : Fields → Bool
  | .nil => true
  | .cons key value rest => !rest.hasKey key && value.wf && rest.wf
end

mutual
/-- Modelled from the spec: the overlay value for a field whose values in the two
states differ.  Spec §4.4, Diff: objects merge field by field recursively; scalar and
array fields are replaced wholesale. -/
def diffValue (original : Json) : Json → Json
  | .obj mf =>
    match original with
    | .obj of => .obj (diffFields of mf)
    | .leaf _ => .obj mf
  | .leaf lit => .leaf lit
/-- Modelled from the spec: the overlay fields for the fields `mf` of the mutated
state against the fields `of` of the original.  Spec §4.4, Diff: fields equal in both
states are omitted entirely from the overlay; only the changed subtree is returned. -/
def diffFields (of : Fields) : Fields → Fields
  | .nil => .nil
  | .cons key vm rest =>
    match of.lookup key with
    | none => .cons key vm (diffFields of rest)
    | some vo =>
      if vo = vm then diffFields of rest
      else .cons key (diffValue vo vm) (diffFields of rest)
end

/-- Modelled from the spec: `Diff(original, mutated)` of the patch engine, on the
encodings of the two states (spec §4.4). -/
def Diff (original mutated : Json) : Json := diffValue original mutated

/-- The overlay fields whose names the base does not have. -/
def newFields (bf : Fields) : Fields → Fields
  | .nil => .nil
  | .cons key pv rest =>
    if bf.hasKey key then newFields bf rest else .cons key pv (newFields bf rest)

mutual
/-- Modelled from the spec: the merge of an overlay value onto a base value.  Spec
§4.4, Apply: object-valued fields merge recursively; all other field types are
replaced by the overlay's value when present. -/
def mergeValue : Json → Json → Json
  | .obj bf, .obj pf => .obj ((mergeFields bf pf).append (newFields bf pf))
  | .obj _, .leaf lit => .leaf lit
  | .leaf _, pv => pv
/-- Modelled from the spec: the fields of the base, each merged with the overlay's
value for it when the overlay has one. -/
def mergeFields : Fields → Fields → Fields
  | .nil, _ => .nil
  | .cons key bv rest, pf =>
    match pf.lookup key with
    | none => .cons key bv (mergeFields rest pf)
    | some pv => .cons key (mergeValue bv pv) (mergeFields rest pf)
end

/-- Modelled from the spec: `Apply(baseBytes, overlayBytes, typeKey)` of the patch
engine (spec §4.4): the overlay is merged onto the base, and the result must decode
cleanly into the target type, else a decode error is reported.  `decodes` is the
serializer's capability to decode a document into the type of `typeKey` (spec §6: the
serializer is a collaborator outside the core, which the core does not look into). -/
def Apply (decodes : GroupVersionKind → Json → Bool) (base overlay : Json)
    (typeKey : GroupVersionKind) : Except Error Json :=
  if decodes typeKey (mergeValue base overlay) then .ok (mergeValue base overlay)
  else .error .decodeError

/-- Modelled from the spec: `Create(object, mutateFn)` of the patch engine (spec
§4.4): `mutateFn` is applied to a deep copy of the object, and the difference between
the object and the mutated copy is returned. -/
def Create (object : Json) (mutateFn : Json → Json) : Json := Diff object (mutateFn object)

mutual
/-- Whether `m` is a mutation of `o`: where both are objects, `m` has the fields of `o`
in the order of `o`, each with the same value or a mutation of it, and possibly
further fields after them; a scalar or array may be replaced by any value. -/
def Json.mutatedTo : Json → Json → Bool
  | .obj of, .obj mf => Fields.mutatedTo of mf
  | .obj _, .leaf _ => true
  | .leaf _, _ => true
/-- Whether the fields `mf` begin with the fields `of`, mutated. -/
def Fields.mutatedTo : Fields → Fields → Bool
  | .nil, _ => true
  | .cons _ _ _, .nil => false
  | .cons key vo orest, .cons key2 vm mrest =>
    decide (key = key2) && Json.mutatedTo vo vm && Fields.mutatedTo orest mrest
end

/-- The fields of `mf` after the first ones that stand against the fields `of`. -/
def dropAligned : Fields → Fields → Fields
  | .nil, mf => mf
  | .cons _ _ _, .nil => .nil
  | .cons _ _ orest, .cons _ _ mrest => dropAligned orest mrest

/-- The fields of the base document of `patch_test.go`: the `Car` named `foo` with its
spec. -/
def carFields : Fields :=
  .cons "kind" (.leaf "\"Car\"")
    (.cons "apiVersion" (.leaf "\"sample-app.weave.works/v1alpha1\"")
    (.cons "metadata" (.obj (.cons "name" (.leaf "\"foo\"")
      (.cons "uid" (.leaf "\"0123456789101112\"") .nil)))
    (.cons "spec" (.obj (.cons "engine" (.leaf "\"foo\"")
      (.cons "brand" (.leaf "\"bar\"") .nil))) .nil)))

/-- The base document of `patch_test.go`. -/
def carDoc : Json := .obj carFields

/-- The field `status` with `speed` set to 24.7. -/
def statusFields : Fields :=
  .cons "status" (.obj (.cons "speed" (.leaf "24.7") .nil)) .nil

/-- The mutation of `patch_test.go`: `status.speed` is set to 24.7. -/
def setSpeed (doc : Json) : Json :=
  match doc with
  | .obj fs => .obj (fs.append statusFields)
  | .leaf lit => .leaf lit

/-- The overlay of `patch_test.go`: the object whose one field `status` holds the one
field `speed` with the value 24.7. -/
def overlayDoc : Json := .obj statusFields

/-- A serializer whose target type has exactly the two states `o` and `m`: it decodes
these two documents and no other. -/
def decodesStates (o m : Json) : GroupVersionKind → Json → Bool :=
  fun _ doc => decide (doc = o) || decide (doc = m)

/-- An object with the fields `a` and `c`. -/
def acDoc : Json := .obj (.cons "a" (.leaf "1") (.cons "c" (.leaf "3") .nil))

/-- The object `acDoc` with a field `b` set between `a` and `c`. -/
def abcDoc : Json :=
  .obj (.cons "a" (.leaf "1") (.cons "b" (.leaf "2") (.cons "c" (.leaf "3") .nil)))

/-- An object with the fields `a` and `b`. -/
def abDoc : Json := .obj (.cons "a" (.leaf "1") (.cons "b" (.leaf "2") .nil))

/-- The object `abDoc` with `a` changed and `b` gone. -/
def aDoc : Json := .obj (.cons "a" (.leaf "3") .nil)

/-! ## Lemmas on the index -/

theorem index.entry_put_same (i : index) (gvk : GroupVersionKind) (uid : UID) (co : cacheObject) :
    (i.put gvk uid co).entry gvk uid = some co := by
  simp [index.entry, index.put, AList.lookup_insert]

theorem index.entry_put_ne (i : index) (gvk gvk1 : GroupVersionKind) (uid uid1 : UID)
    (co : cacheObject) (h : ¬ (gvk1 = gvk ∧ uid1 = uid)) :
    (i.put gvk uid co).entry gvk1 uid1 = i.entry gvk1 uid1 := by
  unfold index.entry index.put
  by_cases hg : gvk1 = gvk
  · subst hg
    have hu : uid1 ≠ uid := fun hu => h ⟨rfl, hu⟩
    simp only [AList.lookup_insert]
    rw [AList.lookup_insert_ne hu]
    cases hl : AList.lookup gvk1 i.objects with
    | none => simp
    | some m => simp
  · simp only []
    rw [AList.lookup_insert_ne hg]

theorem store_eq_put (i : index) (obj : Object) (apiType : Bool) (h : obj.uid ≠ "") :
    store i obj apiType = .ret (none, i.put obj.gvk obj.uid ⟨obj, apiType⟩) := by
  unfold store newCacheObject index.put
  simp only [h, if_false]
  cases hl : AList.lookup obj.gvk i.objects with
  | none => simp [AList.lookup_insert, AList.insert_insert]
  | some m => simp [hl]

theorem store_panic (i : index) (obj : Object) (apiType : Bool) (h : obj.uid = "") :
    store i obj apiType = .panic "Attempt to cache invalid Object: missing UID" := by
  simp [store, h]

theorem index.entry_delete_same (i : index) (key : ObjectKey) :
    (i.delete key).entry key.gvk key.id = none := by
  unfold index.delete index.entry
  cases hl : AList.lookup key.gvk i.objects with
  | none => simp [hl]
  | some m => simp [AList.lookup_insert, AList.lookup_erase]

theorem index.entry_delete_ne (i : index) (key : ObjectKey) (gvk : GroupVersionKind) (uid : UID)
    (h : ¬ (gvk = key.gvk ∧ uid = key.id)) :
    (i.delete key).entry gvk uid = i.entry gvk uid := by
  unfold index.delete index.entry
  cases hl : AList.lookup key.gvk i.objects with
  | none => simp
  | some m =>
    by_cases hg : gvk = key.gvk
    · subst hg
      have hu : uid ≠ key.id := fun hu => h ⟨rfl, hu⟩
      simp [AList.lookup_insert, hl, AList.lookup_erase_ne hu]
    · simp only []
      rw [AList.lookup_insert_ne hg]

/-! ## Listing through the cache -/

theorem cache.List_of_storage_success {σ : Type} (S : Storage σ) (kind : KindKey) (c : cache σ)
    (n : Nat) (objs : Objects)
    (hcount : (S.Count (.ofObjectKey (NewObjectKey kind zeroIdentifier)) c.storage).1 = .ok n)
    (hne : c.index.count kind.GetGVK ≠ n)
    (hlist : (S.List (.ofObjectKey (NewObjectKey kind zeroIdentifier))
      (S.Count (.ofObjectKey (NewObjectKey kind zeroIdentifier)) c.storage).2).1 = (objs, none)) :
    (cache.List S kind c).1 = .ret (objs, none) ∧ (cache.List S kind c).2.index = c.index := by
  unfold cache.List cache.list
  simp only [cache.callCount, hcount, ne_eq, hne, not_false_eq_true, if_true]
  unfold cache.callList
  split
  · rename_i objs1 e c2 heq
    simp only [Prod.mk.injEq] at heq
    rw [hlist] at heq
    simp at heq
  · rename_i objs1 c2 heq
    simp only [Prod.mk.injEq] at heq
    obtain ⟨h1, rfl⟩ := heq
    rw [hlist] at h1
    simp only [Prod.mk.injEq, and_true] at h1
    subst h1
    exact ⟨rfl, rfl⟩

theorem cache.List_of_storage_error {σ : Type} (S : Storage σ) (kind : KindKey) (c : cache σ)
    (n : Nat) (e : Error)
    (hcount : (S.Count (.ofObjectKey (NewObjectKey kind zeroIdentifier)) c.storage).1 = .ok n)
    (hne : c.index.count kind.GetGVK ≠ n)
    (hlist : (S.List (.ofObjectKey (NewObjectKey kind zeroIdentifier))
      (S.Count (.ofObjectKey (NewObjectKey kind zeroIdentifier)) c.storage).2).1 = ([], some e)) :
    (cache.List S kind c).1 = .ret ([], none) ∧ (cache.List S kind c).2.index = c.index := by
  unfold cache.List cache.list
  simp only [cache.callCount, hcount, ne_eq, hne, not_false_eq_true, if_true]
  unfold cache.callList
  split
  · rename_i objs1 e1 c2 heq
    simp only [Prod.mk.injEq] at heq
    obtain ⟨h1, rfl⟩ := heq
    rw [hlist] at h1
    simp only [Prod.mk.injEq, Option.some.injEq] at h1
    obtain ⟨rfl, rfl⟩ := h1
    simp [cache.storeAll, index.storeAll]
  · rename_i objs1 c2 heq
    simp only [Prod.mk.injEq] at heq
    rw [hlist] at heq
    simp at heq

/-- C1, at a storage of one `Car` and an empty index: the storage counts 1 and its
`List` returns the one `Car` (of that GVK, with a UID), the index counts 0, `cache.List` returns the `Car` from the storage, and the index still
counts 0 afterwards (nothing was backfilled: `csf` runs only under `err != nil`);
the next `cache.List` calls the storage's `List` again, so that the log holds two
`List` calls. -/
theorem cache_List_miss_does_not_backfill :
    (mapStorage.Count (NewKindKey carGVK) oneCar).1.toOption = some 1 ∧
    (mapStorage.List (NewKindKey carGVK) oneCar).1 = ([car], none) ∧
    car.gvk = carGVK ∧ car.uid ≠ "" ∧
    (NewCache oneCar).index.count carGVK = 0 ∧
    (cache.List mapStorage (NewKindKey carGVK) (NewCache oneCar)).1 = .ret ([car], none) ∧
    (cache.List mapStorage (NewKindKey carGVK) (NewCache oneCar)).2.index.count carGVK = 0 ∧
    ((cache.List mapStorage (NewKindKey carGVK)
        (cache.List mapStorage (NewKindKey carGVK) (NewCache oneCar)).2).2.calls.filter
      Call.isList).length = 2 := by
  refine ⟨rfl, ?_, rfl, ?_, rfl, ?_, rfl, ?_⟩ <;> decide

/-- C2, at a storage whose `List` and `ListMeta` fail with an I/O error and an empty
index (the counts 0 and 1 differ): `cache.List` and `cache.ListMeta` return a nil
error, because the error of the storage is overwritten by the result of storing the
returned (empty) slice. -/
theorem cache_List_drops_storage_error :
    (NewCache ()).index.count carGVK ≠ 1 ∧
    ((failingListStorage .ioError).List (NewKindKey carGVK) ()).1 = ([], some .ioError) ∧
    (cache.List (failingListStorage .ioError) (NewKindKey carGVK) (NewCache ())).1
      = .ret ([], none) ∧
    ((failingListStorage .ioError).ListMeta (NewKindKey carGVK) ()).1 = ([], some .ioError) ∧
    (cache.ListMeta (failingListStorage .ioError) (NewKindKey carGVK) (NewCache ())).1
      = .ret ([], none) := by
  refine ⟨by decide, rfl, ?_, rfl, ?_⟩ <;> decide

/-! ## Entries in full and in metadata-only form -/

/-- C3, at a storage of one `Car` and an empty index: `cache.Get` returns the `Car`
and leaves a full entry for it; the following `cache.GetMeta` of the same key
succeeds and replaces that entry by a metadata-only one. -/
theorem cache_GetMeta_replaces_full_entry :
    (cache.Get mapStorage carKey (NewCache oneCar)).1 = .ret (some car, none) ∧
    (cache.Get mapStorage carKey (NewCache oneCar)).2.index.entry carGVK car.uid
      = some ⟨car, false⟩ ∧
    (cache.GetMeta mapStorage carKey (cache.Get mapStorage carKey (NewCache oneCar)).2).1
      = .ret (some carMeta, none) ∧
    (cache.GetMeta mapStorage carKey
        (cache.Get mapStorage carKey (NewCache oneCar)).2).2.index.entry carGVK car.uid
      = some ⟨carMeta, true⟩ := by
  refine ⟨?_, ?_, ?_, ?_⟩ <;> decide

/-! ## Objects without a UID -/

/-- C4 as stated fails: `cache.Set` on the `Car` without a UID does not return an
error, it panics. -/
theorem cache_Set_missing_UID_is_a_panic :
    (cache.Set mapStorage carGVK carNoUID (NewCache (∅ : MapState))).1
      = .panic "Attempt to cache invalid Object: missing UID" := by
  decide

/-- C4, amended: for every object whose UID is empty, `cache.Set`, `cache.Create` and
`cache.Update` panic with the message of `store`, before the storage is called and
with the index as it was; `cache.Get` on an index miss and `cache.GetMeta` panic
likewise when the storage hands back such an object. -/
theorem cache_store_missing_UID_panics {σ : Type} (S : Storage σ) (c : cache σ)
    (gvk : GroupVersionKind) (key : ObjectKey) (obj : Object) (h : obj.uid = "") :
    cache.Set S gvk obj c = (.panic "Attempt to cache invalid Object: missing UID", c) ∧
    cache.Create S obj c = (.panic "Attempt to cache invalid Object: missing UID", c) ∧
    cache.Update S obj c = (.panic "Attempt to cache invalid Object: missing UID", c) ∧
    (c.index.entry key.gvk key.id = none → (S.Get key c.storage).1 = .ok obj →
      (cache.Get S key c).1 = .panic "Attempt to cache invalid Object: missing UID") ∧
    ((S.GetMeta key c.storage).1 = .ok obj →
      (cache.GetMeta S key c).1 = .panic "Attempt to cache invalid Object: missing UID") := by
  refine ⟨?_, ?_, ?_, ?_, ?_⟩
  · simp [cache.Set, index.store, store_panic _ _ _ h]
  · simp [cache.Create, index.store, store_panic _ _ _ h]
  · simp [cache.Update, index.store, store_panic _ _ _ h]
  · intro hmiss hget
    simp [cache.Get, index.loadByID, hmiss, cache.callGet, hget, index.store,
      store_panic _ _ _ h]
  · intro hget
    simp [cache.GetMeta, cache.callGetMeta, hget, index.storeMeta, store_panic _ _ _ h]

theorem cache_store_missing_UID_panics_witness :
    carNoUID.uid = "" ∧
    cache.Set mapStorage carGVK carNoUID (NewCache oneCarNoUID)
      = (.panic "Attempt to cache invalid Object: missing UID", NewCache oneCarNoUID) ∧
    (cache.Get mapStorage carKey (NewCache oneCarNoUID)).1
      = .panic "Attempt to cache invalid Object: missing UID" ∧
    (cache.GetMeta mapStorage carKey (NewCache oneCarNoUID)).1
      = .panic "Attempt to cache invalid Object: missing UID" :=
  have h := cache_store_missing_UID_panics mapStorage (NewCache oneCarNoUID) carGVK carKey
    carNoUID rfl
  ⟨rfl, h.1, h.2.2.2.1 rfl rfl, by decide⟩

/-! ## The completeness signal -/

theorem cacheObject.loadFull_calls_filter {σ : Type} (S : Storage σ) (p : Call → Bool)
    (hp : ∀ key, p (Call.Get key) = false) (gvk : GroupVersionKind) (uid : UID)
    (co : cacheObject) (c : cache σ) :
    (co.loadFull S gvk uid c).2.calls.filter p = c.calls.filter p := by
  unfold cacheObject.loadFull cache.callGet
  split
  · split <;> rename_i heq <;> simp only [Prod.mk.injEq] at heq <;> obtain ⟨_, rfl⟩ := heq <;>
      simp [hp]
  · rfl

theorem listLoop_calls_filter {σ : Type} (S : Storage σ) (p : Call → Bool)
    (hp : ∀ key, p (Call.Get key) = false) (gvk : GroupVersionKind)
    (es : List (Sigma fun _ : UID => cacheObject)) (acc : Objects) (c : cache σ) :
    (listLoop S gvk es acc c).2.calls.filter p = c.calls.filter p := by
  induction es generalizing acc c with
  | nil => rfl
  | cons e rest ih =>
    obtain ⟨uid, co⟩ := e
    have h1 := cacheObject.loadFull_calls_filter S p hp gvk uid co c
    unfold listLoop
    split
    · rename_i err c1 heq
      rw [heq] at h1
      exact h1
    · rename_i result c1 heq
      rw [heq] at h1
      rw [ih, h1]

theorem cache.storeAll_calls {σ : Type} (objs : Objects) (c : cache σ) :
    (cache.storeAll objs c).2.calls = c.calls := by
  unfold cache.storeAll
  split <;> rfl

theorem cache.storeAllMeta_calls {σ : Type} (objs : Objects) (c : cache σ) :
    (cache.storeAllMeta objs c).2.calls = c.calls := by
  unfold cache.storeAllMeta
  split <;> rfl

theorem cache.list_listing_calls {σ : Type} (S : Storage σ) (kind : KindKey) (c : cache σ) (n : Nat)
    (h : (S.Count (.ofObjectKey (NewObjectKey kind zeroIdentifier)) c.storage).1 = .ok n) :
    ((cache.List S kind c).2.calls.filter Call.isListing).length
      = (c.calls.filter Call.isListing).length
        + (if c.index.count kind.GetGVK = n then 0 else 1) := by
  unfold cache.List cache.list cache.callCount
  simp only [h]
  by_cases hc : c.index.count kind.GetGVK = n
  · simp only [hc, ne_eq, not_true_eq_false, if_false, if_true, index.list, Libgitops.list]
    rw [listLoop_calls_filter S Call.isListing (fun _ => rfl)]
    simp [Call.isListing, Call.isList, Call.isListMeta]
  · simp only [hc, ne_eq, not_false_eq_true, if_true, if_false]
    unfold cache.callList
    split
    · rename_i objs e c2 heq
      simp only [Prod.mk.injEq] at heq
      obtain ⟨_, rfl⟩ := heq
      have hs := cache.storeAll_calls objs
        ({ storage := (S.List (.ofObjectKey (NewObjectKey kind zeroIdentifier))
              (S.Count (.ofObjectKey (NewObjectKey kind zeroIdentifier)) c.storage).2).2,
           index := c.index,
           calls := (c.calls ++ [Call.Count (.ofObjectKey (NewObjectKey kind zeroIdentifier))])
              ++ [Call.List (.ofObjectKey (NewObjectKey kind zeroIdentifier))] } : cache σ)
      split
      · rename_i msg c3 heq2
        rw [heq2] at hs
        simp only at hs
        rw [hs]
        simp [Call.isListing, Call.isList, Call.isListMeta]
      · rename_i err c3 heq2
        rw [heq2] at hs
        simp only at hs
        rw [hs]
        simp [Call.isListing, Call.isList, Call.isListMeta]
    · rename_i objs c2 heq
      simp only [Prod.mk.injEq] at heq
      obtain ⟨_, rfl⟩ := heq
      simp [Call.isListing, Call.isList, Call.isListMeta]

theorem cache.listMeta_listing_calls {σ : Type} (S : Storage σ) (kind : KindKey) (c : cache σ)
    (n : Nat)
    (h : (S.Count (.ofObjectKey (NewObjectKey kind zeroIdentifier)) c.storage).1 = .ok n) :
    ((cache.ListMeta S kind c).2.calls.filter Call.isListing).length
      = (c.calls.filter Call.isListing).length
        + (if c.index.count kind.GetGVK = n then 0 else 1) := by
  unfold cache.ListMeta cache.listMeta cache.callCount
  simp only [h]
  by_cases hc : c.index.count kind.GetGVK = n
  · simp [hc, index.listMeta, Call.isListing, Call.isList, Call.isListMeta]
  · simp only [hc, ne_eq, not_false_eq_true, if_true, if_false]
    unfold cache.callListMeta
    split
    · rename_i objs e c2 heq
      simp only [Prod.mk.injEq] at heq
      obtain ⟨_, rfl⟩ := heq
      have hs := cache.storeAllMeta_calls objs
        ({ storage := (S.ListMeta (NewKindKey kind.GetGVK)
              (S.Count (.ofObjectKey (NewObjectKey kind zeroIdentifier)) c.storage).2).2,
           index := c.index,
           calls := (c.calls ++ [Call.Count (.ofObjectKey (NewObjectKey kind zeroIdentifier))])
              ++ [Call.ListMeta (NewKindKey kind.GetGVK)] } : cache σ)
      split
      · rename_i msg c3 heq2
        rw [heq2] at hs
        simp only at hs
        rw [hs]
        simp [Call.isListing, Call.isList, Call.isListMeta]
      · rename_i err c3 heq2
        rw [heq2] at hs
        simp only at hs
        rw [hs]
        simp [Call.isListing, Call.isList, Call.isListMeta]
    · rename_i objs c2 heq
      simp only [Prod.mk.injEq] at heq
      obtain ⟨_, rfl⟩ := heq
      simp [Call.isListing, Call.isList, Call.isListMeta]

/-- C5: when the storage's `Count` succeeds with `n`, `cache.List` and `cache.ListMeta`
make no listing call (`List` or `ListMeta`) to the storage if the index counts `n`
entries for the GVK, and exactly one otherwise; on equal counts the result is the
one of the index (`index.list`, `listMeta`). -/
theorem cache_List_completeness_signal {σ : Type} (S : Storage σ) (kind : KindKey) (c : cache σ)
    (n : Nat)
    (h : (S.Count (.ofObjectKey (NewObjectKey kind zeroIdentifier)) c.storage).1 = .ok n) :
    ((cache.List S kind c).2.calls.filter Call.isListing).length
      = (c.calls.filter Call.isListing).length
        + (if c.index.count kind.GetGVK = n then 0 else 1) ∧
    ((cache.ListMeta S kind c).2.calls.filter Call.isListing).length
      = (c.calls.filter Call.isListing).length
        + (if c.index.count kind.GetGVK = n then 0 else 1) ∧
    (c.index.count kind.GetGVK = n →
      (cache.List S kind c).1
        = .ret (index.list S (.ofObjectKey (NewObjectKey kind zeroIdentifier))
            (c.callCount S (.ofObjectKey (NewObjectKey kind zeroIdentifier))).2).1 ∧
      (cache.ListMeta S kind c).1 = .ret (listMeta c.index kind.GetGVK)) := by
  refine ⟨cache.list_listing_calls S kind c n h, cache.listMeta_listing_calls S kind c n h, ?_⟩
  intro hc
  constructor
  · unfold cache.List cache.list
    simp [cache.callCount, h, hc]
  · unfold cache.ListMeta cache.listMeta
    simp [cache.callCount, h, hc, index.listMeta]

theorem cache_List_completeness_signal_witness :
    (mapStorage.Count (.ofObjectKey (NewObjectKey (NewKindKey carGVK) zeroIdentifier))
      (NewCache oneCar).storage).1 = .ok 1 ∧
    ((cache.List mapStorage (NewKindKey carGVK) (NewCache oneCar)).2.calls.filter
      Call.isListing).length = 0 + 1 ∧
    ((cache.ListMeta mapStorage (NewKindKey carGVK) (NewCache oneCar)).2.calls.filter
      Call.isListing).length = 0 + 1 :=
  have h := cache_List_completeness_signal mapStorage (NewKindKey carGVK) (NewCache oneCar) 1 rfl
  ⟨rfl, h.1, h.2.1⟩

/-- C5 on equal counts: an empty index in front of an empty storage answers from the
index, without a listing call. -/
theorem cache_List_completeness_signal_hit :
    ((cache.List mapStorage (NewKindKey carGVK) (NewCache (∅ : MapState))).2.calls.filter
      Call.isListing).length = 0 ∧
    (cache.List mapStorage (NewKindKey carGVK) (NewCache (∅ : MapState))).1 = .ret ([], none) ∧
    (cache.ListMeta mapStorage (NewKindKey carGVK) (NewCache (∅ : MapState))).1
      = .ret ([], none) := by
  refine ⟨?_, ?_, ?_⟩ <;> decide

/-! ## Read-through Get -/

/-- C6 as stated fails: the storage holds the `Car` under its name (the identifier of
the sample application); the key is absent from the index and the storage's `Get`
succeeds with the `Car`, whose UID is not empty.  `cache.Get` returns the `Car` but
files it under its UID: the index has no entry at the key, and the next `cache.Get`
of the key calls the storage's `Get` again. -/
theorem cache_Get_by_name_misses_again :
    (NewCache oneCarByName).index.entry carKeyForName.gvk carKeyForName.id = none ∧
    (mapStorage.Get carKeyForName oneCarByName).1.toOption = some car ∧
    car.uid ≠ "" ∧
    (cache.Get mapStorage carKeyForName (NewCache oneCarByName)).1 = .ret (some car, none) ∧
    (cache.Get mapStorage carKeyForName (NewCache oneCarByName)).2.index.entry
      carKeyForName.gvk carKeyForName.id = none ∧
    ((cache.Get mapStorage carKeyForName
        (cache.Get mapStorage carKeyForName (NewCache oneCarByName)).2).2.calls.filter
      Call.isGet).length = 2 := by
  refine ⟨?_, ?_, ?_, ?_, ?_, ?_⟩ <;> decide

/-- C6, amended: for a key absent from the index, when the storage's `Get` succeeds
with an object `o` of non-empty UID, `cache.Get` returns `o` after one `Get` call and
stores `o` as a full entry under the GVK and UID of `o`; if these are the GVK and
identifier of the key, the next `cache.Get` of the key returns `o` from the index and
changes nothing (no call to the storage).  When the storage's `Get` fails, its error
is returned and the index is unchanged. -/
theorem cache_Get_read_through {σ : Type} (S : Storage σ) (key : ObjectKey) (c : cache σ)
    (hmiss : c.index.entry key.gvk key.id = none) :
    (∀ o : Object, (S.Get key c.storage).1 = .ok o → o.uid ≠ "" →
      cache.Get S key c
        = (.ret (some o, none),
            { storage := (S.Get key c.storage).2,
              index := c.index.put o.gvk o.uid ⟨o, false⟩,
              calls := c.calls ++ [Call.Get key] }) ∧
      (cache.Get S key c).2.index.entry o.gvk o.uid = some ⟨o, false⟩ ∧
      (o.gvk = key.gvk → o.uid = key.id →
        cache.Get S key (cache.Get S key c).2 = (.ret (some o, none), (cache.Get S key c).2))) ∧
    (∀ e : Error, (S.Get key c.storage).1 = .error e →
      (cache.Get S key c).1 = .ret (none, some e) ∧ (cache.Get S key c).2.index = c.index) := by
  constructor
  · intro o hget huid
    have h1 : cache.Get S key c
        = (.ret (some o, none),
            { storage := (S.Get key c.storage).2,
              index := c.index.put o.gvk o.uid ⟨o, false⟩,
              calls := c.calls ++ [Call.Get key] }) := by
      simp [cache.Get, index.loadByID, hmiss, cache.callGet, hget, index.store,
        store_eq_put _ _ _ huid]
    refine ⟨h1, ?_, ?_⟩
    · rw [h1]
      exact index.entry_put_same _ _ _ _
    · intro hg hu
      rw [h1]
      have he : (c.index.put o.gvk o.uid ⟨o, false⟩).entry key.gvk key.id = some ⟨o, false⟩ := by
        rw [← hg, ← hu]
        exact index.entry_put_same _ _ _ _
      simp [cache.Get, index.loadByID, he, cacheObject.loadFull]
  · intro e hget
    simp [cache.Get, index.loadByID, hmiss, cache.callGet, hget]

theorem cache_Get_read_through_witness :
    (NewCache oneCar).index.entry carKey.gvk carKey.id = none ∧
    (mapStorage.Get carKey (NewCache oneCar).storage).1 = .ok car ∧
    car.uid ≠ "" ∧ car.gvk = carKey.gvk ∧ car.uid = carKey.id ∧
    (cache.Get mapStorage carKey (NewCache oneCar)).2.index.entry car.gvk car.uid
      = some ⟨car, false⟩ ∧
    cache.Get mapStorage carKey (cache.Get mapStorage carKey (NewCache oneCar)).2
      = (.ret (some car, none), (cache.Get mapStorage carKey (NewCache oneCar)).2) ∧
    (mapStorage.Get carKey (NewCache (∅ : MapState)).storage).1 = .error .notFound ∧
    (cache.Get mapStorage carKey (NewCache (∅ : MapState))).1 = .ret (none, some .notFound) :=
  have h := (cache_Get_read_through mapStorage carKey (NewCache oneCar) rfl).1 car rfl
    (by decide)
  have h0 := (cache_Get_read_through mapStorage carKey (NewCache (∅ : MapState)) rfl).2
    .notFound rfl
  ⟨rfl, rfl, by decide, rfl, rfl, h.2.1, h.2.2 rfl rfl, rfl, h0.1⟩

/-! ## Delete -/

theorem mapStorage_Get_of_lookup_none (key : ObjectKey) (m : MapState)
    (h : m.lookup key = none) : mapStorage.Get key m = (.error .notFound, m) := by
  simp [mapStorage, h]

/-- C7: after `cache.Delete` the index holds no entry for the GVK and identifier of the
key, every other entry of the index is unchanged, and the result is the one of the
storage's `Delete`; over the map storage, when that `Delete` succeeded, the key is
gone from the storage and a following `cache.Get` of the key reports `NotFound`. -/
theorem cache_Delete_removes_from_both_layers {σ : Type} (S : Storage σ) (key : ObjectKey)
    (c : cache σ) (cm : cache MapState) :
    (cache.Delete S key c).1 = (S.Delete key c.storage).1 ∧
    (cache.Delete S key c).2.index.entry key.gvk key.id = none ∧
    (∀ gvk uid, ¬ (gvk = key.gvk ∧ uid = key.id) →
      (cache.Delete S key c).2.index.entry gvk uid = c.index.entry gvk uid) ∧
    ((cache.Delete mapStorage key cm).1 = none →
      (cache.Delete mapStorage key cm).2.storage.lookup key = none ∧
      (cache.Get mapStorage key (cache.Delete mapStorage key cm).2).1
        = .ret (none, some .notFound)) := by
  refine ⟨rfl, ?_, ?_, ?_⟩
  · exact index.entry_delete_same c.index key
  · intro gvk uid h
    exact index.entry_delete_ne c.index key gvk uid h
  · intro hdel
    have hl : (cache.Delete mapStorage key cm).2.storage.lookup key = none := by
      simp only [cache.Delete, cache.callDelete, mapStorage] at hdel ⊢
      by_cases hs : (AList.lookup key cm.storage).isSome
      · simp [hs, AList.lookup_erase]
      · simp [hs] at hdel
    refine ⟨hl, ?_⟩
    have he : (cache.Delete mapStorage key cm).2.index.entry key.gvk key.id = none :=
      index.entry_delete_same cm.index key
    simp only [cache.Get, index.loadByID, he, cache.callGet]
    rw [mapStorage_Get_of_lookup_none key _ hl]

theorem cache_Delete_removes_from_both_layers_witness :
    (cache.Get mapStorage carKey (NewCache oneCar)).2.index.entry carKey.gvk carKey.id
      = some ⟨car, false⟩ ∧
    (cache.Delete mapStorage carKey (cache.Get mapStorage carKey (NewCache oneCar)).2).1 = none ∧
    (cache.Delete mapStorage carKey
      (cache.Get mapStorage carKey (NewCache oneCar)).2).2.index.entry carKey.gvk carKey.id
      = none ∧
    (cache.Get mapStorage carKey
      (cache.Delete mapStorage carKey (cache.Get mapStorage carKey (NewCache oneCar)).2).2).1
      = .ret (none, some .notFound) :=
  have h := cache_Delete_removes_from_both_layers mapStorage carKey
    (cache.Get mapStorage carKey (NewCache oneCar)).2
    (cache.Get mapStorage carKey (NewCache oneCar)).2
  ⟨by decide, by decide, h.2.1, (h.2.2.2 (by decide)).2⟩

/-! ## Write-through -/

/-- C8: for an object with a non-empty UID, `cache.Create`, `cache.Update` and
`cache.Set` put the object in the index as a full entry under its GVK and UID, then
call the storage's write once (`Create` for `Create`, `Update` for `Update` and `Set`)
on the storage as it was, and return exactly its result; the index holds the new
entry whatever that result is. -/
theorem cache_write_through {σ : Type} (S : Storage σ) (gvk : GroupVersionKind) (obj : Object)
    (c : cache σ) (h : obj.uid ≠ "") :
    (cache.Create S obj c
      = (.ret (S.Create obj c.storage).1,
          { storage := (S.Create obj c.storage).2,
            index := c.index.put obj.gvk obj.uid ⟨obj, false⟩,
            calls := c.calls ++ [Call.Create obj (S.Create obj c.storage).1] }) ∧
      (cache.Create S obj c).2.index.entry obj.gvk obj.uid = some ⟨obj, false⟩) ∧
    (cache.Update S obj c
      = (.ret (S.Update obj c.storage).1,
          { storage := (S.Update obj c.storage).2,
            index := c.index.put obj.gvk obj.uid ⟨obj, false⟩,
            calls := c.calls ++ [Call.Update obj (S.Update obj c.storage).1] }) ∧
      (cache.Update S obj c).2.index.entry obj.gvk obj.uid = some ⟨obj, false⟩) ∧
    (cache.Set S gvk obj c
      = (.ret (S.Update obj c.storage).1,
          { storage := (S.Update obj c.storage).2,
            index := c.index.put obj.gvk obj.uid ⟨obj, false⟩,
            calls := c.calls ++ [Call.Update obj (S.Update obj c.storage).1] }) ∧
      (cache.Set S gvk obj c).2.index.entry obj.gvk obj.uid = some ⟨obj, false⟩) := by
  have hc : cache.Create S obj c
      = (.ret (S.Create obj c.storage).1,
          { storage := (S.Create obj c.storage).2,
            index := c.index.put obj.gvk obj.uid ⟨obj, false⟩,
            calls := c.calls ++ [Call.Create obj (S.Create obj c.storage).1] }) := by
    simp [cache.Create, index.store, store_eq_put _ _ _ h, cache.callCreate]
  have hu : cache.Update S obj c
      = (.ret (S.Update obj c.storage).1,
          { storage := (S.Update obj c.storage).2,
            index := c.index.put obj.gvk obj.uid ⟨obj, false⟩,
            calls := c.calls ++ [Call.Update obj (S.Update obj c.storage).1] }) := by
    simp [cache.Update, index.store, store_eq_put _ _ _ h, cache.callUpdate]
  have hs : cache.Set S gvk obj c
      = (.ret (S.Update obj c.storage).1,
          { storage := (S.Update obj c.storage).2,
            index := c.index.put obj.gvk obj.uid ⟨obj, false⟩,
            calls := c.calls ++ [Call.Update obj (S.Update obj c.storage).1] }) := by
    simp [cache.Set, index.store, store_eq_put _ _ _ h, cache.callUpdate]
  refine ⟨⟨hc, ?_⟩, ⟨hu, ?_⟩, ⟨hs, ?_⟩⟩
  · rw [hc]; exact index.entry_put_same _ _ _ _
  · rw [hu]; exact index.entry_put_same _ _ _ _
  · rw [hs]; exact index.entry_put_same _ _ _ _

theorem cache_write_through_witness :
    car.uid ≠ "" ∧
    (cache.Create mapStorage car (NewCache oneCar)).1 = .ret (some .alreadyExists) ∧
    (cache.Create mapStorage car (NewCache oneCar)).2.index.entry car.gvk car.uid
      = some ⟨car, false⟩ ∧
    (cache.Update mapStorage car (NewCache (∅ : MapState))).1 = .ret (some .notFound) ∧
    (cache.Update mapStorage car (NewCache (∅ : MapState))).2.index.entry car.gvk car.uid
      = some ⟨car, false⟩ ∧
    (cache.Set mapStorage carGVK car (NewCache oneCar)).1 = .ret none ∧
    (cache.Set mapStorage carGVK car (NewCache oneCar)).2.index.entry car.gvk car.uid
      = some ⟨car, false⟩ :=
  have h1 := cache_write_through mapStorage carGVK car (NewCache oneCar) (by decide)
  have h0 := cache_write_through mapStorage carGVK car (NewCache (∅ : MapState)) (by decide)
  ⟨by decide, by decide, h1.1.2, by decide, h0.2.1.2, by decide, h1.2.2.2⟩

/-! ## Flush -/

theorem UIDMap.length_insert_of_mem (m : UIDMap) (uid : UID) (co : cacheObject)
    (h : (m.lookup uid).isSome) : (m.insert uid co).entries.length = m.entries.length := by
  have hk : uid ∈ m.keys := AList.mem_keys.mp (AList.lookup_isSome.mp h)
  have h1 : (m.insert uid co).keys.length = m.keys.length := by
    rw [AList.keys_insert, List.length_cons, List.length_erase_of_mem hk]
    have : 0 < m.keys.length := List.length_pos_of_mem hk
    omega
  simpa [AList.keys, List.keys] using h1

theorem index.count_put_of_entry (i : index) (gvk gvk1 : GroupVersionKind) (uid : UID)
    (co : cacheObject) (h : (i.entry gvk uid).isSome) :
    (i.put gvk uid co).count gvk1 = i.count gvk1 := by
  unfold index.entry at h
  unfold index.count index.put
  by_cases hg : gvk1 = gvk
  · subst hg
    cases hl : AList.lookup gvk1 i.objects with
    | none => simp [hl] at h
    | some m =>
      simp only [hl] at h
      simp only [AList.lookup_insert, Option.getD_some]
      exact UIDMap.length_insert_of_mem m uid co h
  · simp only []
    rw [AList.lookup_insert_ne hg]

theorem index.PromotedFrom.refl (i : index) : i.PromotedFrom i :=
  ⟨fun _ _ h => h, fun _ _ _ h => Or.inl h, fun _ => rfl⟩

theorem index.PromotedFrom.put {i0 i : index} (h : i0.PromotedFrom i) (gvk : GroupVersionKind)
    (uid : UID) (o : Object)
    (h0 : ∃ co0, i0.entry gvk uid = some co0 ∧ co0.apiType = true) :
    i0.PromotedFrom (i.put gvk uid ⟨o, false⟩) := by
  obtain ⟨co0, hco0, hapi⟩ := h0
  refine ⟨?_, ?_, ?_⟩
  · intro g u hn
    have hne : ¬ (g = gvk ∧ u = uid) := by
      rintro ⟨rfl, rfl⟩
      rw [hco0] at hn
      cases hn
    rw [index.entry_put_ne _ _ _ _ _ _ hne]
    exact h.1 g u hn
  · intro g u co hs
    by_cases he : g = gvk ∧ u = uid
    · obtain ⟨rfl, rfl⟩ := he
      rw [hco0] at hs
      cases hs
      exact Or.inr ⟨hapi, o, index.entry_put_same _ _ _ _⟩
    · rw [index.entry_put_ne _ _ _ _ _ _ he]
      exact h.2.1 g u co hs
  · intro g
    have hsome : (i.entry gvk uid).isSome := by
      rcases h.2.1 gvk uid co0 hco0 with h1 | ⟨_, o1, h1⟩ <;> simp [h1]
    rw [index.count_put_of_entry _ _ _ _ _ hsome]
    exact h.2.2 g

theorem cacheObject.loadFull_index {σ : Type} (S : Storage σ) (gvk : GroupVersionKind) (uid : UID)
    (co : cacheObject) (c : cache σ) :
    (co.loadFull S gvk uid c).2.index = c.index ∨
    (co.apiType = true ∧ ∃ o, (co.loadFull S gvk uid c).2.index = c.index.put gvk uid ⟨o, false⟩) := by
  unfold cacheObject.loadFull cache.callGet
  by_cases hapi : co.apiType = true
  · simp only [hapi, if_true]
    split
    · rename_i obj c1 heq
      simp only [Prod.mk.injEq] at heq
      obtain ⟨_, rfl⟩ := heq
      exact Or.inr ⟨trivial, obj, rfl⟩
    · rename_i err c1 heq
      simp only [Prod.mk.injEq] at heq
      obtain ⟨_, rfl⟩ := heq
      exact Or.inl rfl
  · simp [hapi]

theorem listLoop_promoted {σ : Type} (S : Storage σ) (i0 : index) (gvk : GroupVersionKind)
    (es : List (Sigma fun _ : UID => cacheObject)) (acc : Objects) (c : cache σ)
    (hes : ∀ e ∈ es, e.2.apiType = true →
      ∃ co0, i0.entry gvk e.1 = some co0 ∧ co0.apiType = true)
    (h : i0.PromotedFrom c.index) :
    i0.PromotedFrom (listLoop S gvk es acc c).2.index := by
  induction es generalizing acc c with
  | nil => exact h
  | cons e rest ih =>
    obtain ⟨uid, co⟩ := e
    have h1 : i0.PromotedFrom (co.loadFull S gvk uid c).2.index := by
      rcases cacheObject.loadFull_index S gvk uid co c with hi | ⟨hapi, o, hi⟩
      · rw [hi]; exact h
      · rw [hi]
        exact h.put gvk uid o (hes ⟨uid, co⟩ (List.mem_cons_self _ _) hapi)
    unfold listLoop
    split
    · rename_i err c1 heq
      rw [heq] at h1
      exact h1
    · rename_i result c1 heq
      rw [heq] at h1
      exact ih _ _ (fun e he => hes e (List.mem_cons_of_mem _ he)) h1

theorem index.entry_of_mem_uids (i : index) (gvk : GroupVersionKind)
    (e : Sigma fun _ : UID => cacheObject) (h : e ∈ i.uids gvk) :
    i.entry gvk e.1 = some e.2 := by
  unfold index.uids at h
  unfold index.entry
  cases hl : AList.lookup gvk i.objects with
  | none => simp [hl] at h
  | some m =>
    simp only [hl] at h
    exact AList.mem_lookup_iff.mpr h

theorem index.uids_length (i : index) (gvk : GroupVersionKind) :
    (i.uids gvk).length = i.count gvk := by
  unfold index.uids index.count
  cases AList.lookup gvk i.objects <;> rfl

theorem list_promoted {σ : Type} (S : Storage σ) (i0 : index) (gvk : GroupVersionKind)
    (c : cache σ) (h : i0.PromotedFrom c.index) :
    i0.PromotedFrom (Libgitops.list S gvk c).2.index := by
  unfold Libgitops.list
  apply listLoop_promoted S i0 gvk _ _ _ _ h
  intro e he hapi
  have hc := index.entry_of_mem_uids c.index gvk e he
  cases h0 : i0.entry gvk e.1 with
  | none =>
    rw [h.1 gvk e.1 h0] at hc
    cases hc
  | some co0 =>
    refine ⟨co0, rfl, ?_⟩
    rcases h.2.1 gvk e.1 co0 h0 with h1 | ⟨h1, _⟩
    · rw [h1] at hc
      cases hc
      exact hapi
    · exact h1
theorem listLoop_length {σ : Type} (S : Storage σ) (gvk : GroupVersionKind)
    (es : List (Sigma fun _ : UID => cacheObject)) (acc : Objects) (c : cache σ)
    (h : (listLoop S gvk es acc c).1.2 = none) :
    (listLoop S gvk es acc c).1.1.length = acc.length + es.length := by
  induction es generalizing acc c with
  | nil => rfl
  | cons e rest ih =>
    obtain ⟨uid, co⟩ := e
    unfold listLoop at h ⊢
    split
    · rename_i err c1 heq
      rw [heq] at h
      cases h
    · rename_i result c1 heq
      rw [heq] at h
      rw [ih _ _ h]
      simp only [List.length_append, List.length_cons, List.length_nil]
      omega

theorem loadAllLoop_promoted {σ : Type} (S : Storage σ) (i0 : index)
    (gvks : List GroupVersionKind) (all : Objects) (c : cache σ)
    (h : i0.PromotedFrom c.index) :
    i0.PromotedFrom (loadAllLoop S gvks all c).2.index ∧
    ((loadAllLoop S gvks all c).1.2 = none →
      (loadAllLoop S gvks all c).1.1.length = all.length + (gvks.map i0.count).sum) := by
  induction gvks generalizing all c with
  | nil => exact ⟨h, fun _ => by simp [loadAllLoop]⟩
  | cons gvk rest ih =>
    have h1 := list_promoted S i0 gvk c h
    have hlen := listLoop_length S gvk (c.index.uids gvk) [] c
    rw [index.uids_length, h.2.2 gvk] at hlen
    unfold loadAllLoop index.list NewKindKey KindKey.GetGVK
    unfold Libgitops.list at h1 ⊢
    split
    · rename_i objects c1 heq
      rw [heq] at h1 hlen
      refine ⟨(ih _ _ h1).1, fun hn => ?_⟩
      rw [(ih _ _ h1).2 hn]
      have := hlen rfl
      simp only [List.length_nil, Nat.zero_add] at this
      simp only [List.length_append, List.map_cons, List.sum_cons, this]
      omega
    · rename_i objs err c1 heq
      rw [heq] at h1
      exact ⟨h1, fun hn => by cases hn⟩

theorem loadAllLoop_calls_filter {σ : Type} (S : Storage σ) (p : Call → Bool)
    (hp : ∀ key, p (Call.Get key) = false) (gvks : List GroupVersionKind) (all : Objects)
    (c : cache σ) :
    (loadAllLoop S gvks all c).2.calls.filter p = c.calls.filter p := by
  induction gvks generalizing all c with
  | nil => rfl
  | cons gvk rest ih =>
    have h1 := listLoop_calls_filter S p hp gvk (c.index.uids gvk) [] c
    unfold loadAllLoop index.list NewKindKey KindKey.GetGVK Libgitops.list
    split
    · rename_i objects c1 heq
      rw [heq] at h1
      rw [ih, h1]
    · rename_i objs err c1 heq
      rw [heq] at h1
      exact h1

theorem listLoop_of_full {σ : Type} (S : Storage σ) (gvk : GroupVersionKind)
    (es : List (Sigma fun _ : UID => cacheObject)) (acc : Objects) (c : cache σ)
    (h : ∀ e ∈ es, e.2.apiType = false) :
    listLoop S gvk es acc c = ((acc ++ es.map fun e => e.2.object, none), c) := by
  induction es generalizing acc with
  | nil => simp [listLoop]
  | cons e rest ih =>
    obtain ⟨uid, co⟩ := e
    have hco : co.apiType = false := h ⟨uid, co⟩ (List.mem_cons_self _ _)
    unfold listLoop
    simp only [cacheObject.loadFull, hco, Bool.false_eq_true, if_false]
    rw [ih _ (fun e he => h e (List.mem_cons_of_mem _ he))]
    simp

theorem loadAllLoop_of_full {σ : Type} (S : Storage σ) (gvks : List GroupVersionKind)
    (all : Objects) (c : cache σ)
    (h : ∀ gvk uid co, c.index.entry gvk uid = some co → co.apiType = false) :
    (loadAllLoop S gvks all c).1.2 = none ∧ (loadAllLoop S gvks all c).2 = c := by
  induction gvks generalizing all with
  | nil => exact ⟨rfl, rfl⟩
  | cons gvk rest ih =>
    have hl := listLoop_of_full S gvk (c.index.uids gvk) [] c
      (fun e he => h gvk e.1 e.2 (index.entry_of_mem_uids c.index gvk e he))
    unfold loadAllLoop index.list NewKindKey KindKey.GetGVK Libgitops.list
    rw [hl]
    exact ih _

theorem flushLoop_index {σ : Type} (S : Storage σ) (objs : Objects) (c : cache σ) :
    (flushLoop S objs c).2.index = c.index := by
  induction objs generalizing c with
  | nil => rfl
  | cons obj rest ih =>
    unfold flushLoop cache.callUpdate
    split
    · rename_i err c1 heq
      simp only [Prod.mk.injEq] at heq
      obtain ⟨_, rfl⟩ := heq
      rfl
    · rename_i c1 heq
      simp only [Prod.mk.injEq] at heq
      obtain ⟨_, rfl⟩ := heq
      rw [ih]

theorem flushLoop_calls {σ : Type} (S : Storage σ) (objs : Objects) (c : cache σ) :
    ((flushLoop S objs c).1 = none ∧
      (flushLoop S objs c).2.calls = c.calls ++ objs.map fun o => Call.Update o none) ∨
    (∃ pre o post e, objs = pre ++ o :: post ∧ (flushLoop S objs c).1 = some e ∧
      (flushLoop S objs c).2.calls
        = c.calls ++ (pre.map fun o => Call.Update o none) ++ [Call.Update o (some e)]) := by
  induction objs generalizing c with
  | nil => exact Or.inl ⟨rfl, by simp [flushLoop]⟩
  | cons obj rest ih =>
    unfold flushLoop cache.callUpdate
    split
    · rename_i err c1 heq
      simp only [Prod.mk.injEq] at heq
      obtain ⟨he, rfl⟩ := heq
      exact Or.inr ⟨[], obj, rest, err, rfl, rfl, by simp [he]⟩
    · rename_i c1 heq
      simp only [Prod.mk.injEq] at heq
      obtain ⟨he, rfl⟩ := heq
      rcases ih { storage := (S.Update obj c.storage).2, index := c.index,
                  calls := c.calls ++ [Call.Update obj (S.Update obj c.storage).1] }
        with ⟨h1, h2⟩ | ⟨pre, o, post, e, h1, h2, h3⟩
      · exact Or.inl ⟨h1, by rw [h2]; simp [he]⟩
      · exact Or.inr ⟨obj :: pre, o, post, e, by rw [h1]; rfl, h2, by rw [h3]; simp [he]⟩

theorem flushLoop_of_success {σ : Type} (S : Storage σ) (objs : Objects) (c : cache σ)
    (h : ∀ o s, (S.Update o s).1 = none) : (flushLoop S objs c).1 = none := by
  induction objs generalizing c with
  | nil => rfl
  | cons obj rest ih =>
    unfold flushLoop cache.callUpdate
    simp only [h]
    exact ih _
theorem cache.Flush_eq {σ : Type} (S : Storage σ) (c : cache σ)
    (hload : (index.loadAll S c).1.2 = none) :
    cache.Flush S c = flushLoop S (index.loadAll S c).1.1 (index.loadAll S c).2 := by
  unfold cache.Flush
  split
  · rename_i objs err c1 heq
    rw [heq] at hload
    cases hload
  · rename_i allObjects c1 heq
    rw [heq]

/-- C9: when every entry of the index loads (`index.loadAll` returns no error),
`index.loadAll` yields one object per entry (as many as the sum of the counts of all
GVKs), and `cache.Flush` calls the storage's `Update` on these objects in turn: either
every `Update` returned nil, there is exactly one `Update` call per object, and `Flush`
returns nil; or `Flush` stops at the first `Update` that failed and returns its error.
The index keeps its entries: none is added or removed, the counts are unchanged, an
entry held in full form is unchanged, and an entry held in metadata-only form is
unchanged or has been promoted to full form by its load; if every entry is held in full
form, the index is unchanged. -/
theorem cache_Flush_writes_every_entry {σ : Type} (S : Storage σ) (c : cache σ)
    (hload : (index.loadAll S c).1.2 = none) :
    (index.loadAll S c).1.1.length = c.index.size ∧
    (((cache.Flush S c).1 = none ∧
        (cache.Flush S c).2.calls.filter Call.isUpdate
          = c.calls.filter Call.isUpdate
            ++ (index.loadAll S c).1.1.map fun o => Call.Update o none) ∨
      (∃ pre o post e, (index.loadAll S c).1.1 = pre ++ o :: post ∧
        (cache.Flush S c).1 = some e ∧
        (cache.Flush S c).2.calls.filter Call.isUpdate
          = c.calls.filter Call.isUpdate ++ (pre.map fun o => Call.Update o none)
            ++ [Call.Update o (some e)])) ∧
    ((∀ o s, (S.Update o s).1 = none) →
      (cache.Flush S c).1 = none ∧
      ((cache.Flush S c).2.calls.filter Call.isUpdate).length
        = (c.calls.filter Call.isUpdate).length + c.index.size) ∧
    ((∀ gvk uid, c.index.entry gvk uid = none →
        (cache.Flush S c).2.index.entry gvk uid = none) ∧
      (∀ gvk uid co, c.index.entry gvk uid = some co →
        (cache.Flush S c).2.index.entry gvk uid = some co ∨
        (co.apiType = true ∧ ∃ o, (cache.Flush S c).2.index.entry gvk uid = some ⟨o, false⟩)) ∧
      (∀ gvk, (cache.Flush S c).2.index.count gvk = c.index.count gvk)) ∧
    ((∀ gvk uid co, c.index.entry gvk uid = some co → co.apiType = false) →
      (cache.Flush S c).2.index = c.index) := by
  have hp := loadAllLoop_promoted S c.index c.index.objects.keys [] c
    (index.PromotedFrom.refl c.index)
  have hlen : (index.loadAll S c).1.1.length = c.index.size := by
    have := hp.2 hload
    simpa [index.loadAll, index.size] using this
  have hcalls : (index.loadAll S c).2.calls.filter Call.isUpdate
      = c.calls.filter Call.isUpdate :=
    loadAllLoop_calls_filter S Call.isUpdate (fun _ => rfl) c.index.objects.keys [] c
  have hfl := cache.Flush_eq S c hload
  have hupd : ∀ l : Objects, (l.map fun o => Call.Update o none).filter Call.isUpdate
      = l.map fun o => Call.Update o none := by
    intro l
    induction l with
    | nil => rfl
    | cons a t ih => simp [Call.isUpdate, List.filter_cons]
  have hcases : ((cache.Flush S c).1 = none ∧
        (cache.Flush S c).2.calls.filter Call.isUpdate
          = c.calls.filter Call.isUpdate
            ++ (index.loadAll S c).1.1.map fun o => Call.Update o none) ∨
      (∃ pre o post e, (index.loadAll S c).1.1 = pre ++ o :: post ∧
        (cache.Flush S c).1 = some e ∧
        (cache.Flush S c).2.calls.filter Call.isUpdate
          = c.calls.filter Call.isUpdate ++ (pre.map fun o => Call.Update o none)
            ++ [Call.Update o (some e)]) := by
    rw [hfl]
    rcases flushLoop_calls S (index.loadAll S c).1.1 (index.loadAll S c).2
      with ⟨h1, h2⟩ | ⟨pre, o, post, e, h1, h2, h3⟩
    · refine Or.inl ⟨h1, ?_⟩
      rw [h2, List.filter_append, hcalls, hupd]
    · refine Or.inr ⟨pre, o, post, e, h1, h2, ?_⟩
      rw [h3, List.filter_append, List.filter_append, hcalls, hupd]
      simp [Call.isUpdate]
  refine ⟨hlen, hcases, ?_, ?_, ?_⟩
  · intro hall
    have hnone : (cache.Flush S c).1 = none := by
      rw [hfl]
      exact flushLoop_of_success S _ _ hall
    refine ⟨hnone, ?_⟩
    rcases hcases with ⟨_, h2⟩ | ⟨_, _, _, e, _, h2, _⟩
    · rw [h2, List.length_append, List.length_map, hlen]
    · rw [hnone] at h2
      cases h2
  · have hidx : (cache.Flush S c).2.index = (index.loadAll S c).2.index := by
      rw [hfl]
      exact flushLoop_index S _ _
    rw [hidx]
    exact hp.1
  · intro hfull
    have h2 := (loadAllLoop_of_full S c.index.objects.keys [] c hfull).2
    rw [hfl, flushLoop_index]
    unfold index.loadAll
    rw [h2]

/-- C9 as stated fails on "the Index is left unchanged": the index holds the `Car` in
metadata-only form; the entry loads (the storage's `Get` succeeds), `cache.Flush`
returns nil after one `Update`, and the entry is now in full form, so the index is
not what it was. -/
theorem cache_Flush_promotes_entry :
    cacheWithCarMeta.index.entry carGVK car.uid = some ⟨carMeta, true⟩ ∧
    (index.loadAll mapStorage cacheWithCarMeta).1.2 = none ∧
    (cache.Flush mapStorage cacheWithCarMeta).1 = none ∧
    (cache.Flush mapStorage cacheWithCarMeta).2.calls.filter Call.isUpdate
      = [Call.Update car none] ∧
    (cache.Flush mapStorage cacheWithCarMeta).2.index.entry carGVK car.uid
      = some ⟨car, false⟩ ∧
    (cache.Flush mapStorage cacheWithCarMeta).2.index ≠ cacheWithCarMeta.index := by
  refine ⟨by decide, by decide, by decide, by decide, by decide, ?_⟩
  intro h
  have h1 : (cache.Flush mapStorage cacheWithCarMeta).2.index.entry carGVK car.uid
      = cacheWithCarMeta.index.entry carGVK car.uid := by rw [h]
  revert h1
  decide

theorem cache_Flush_writes_every_entry_witness :
    (index.loadAll mapStorage cacheWithCarMeta).1.2 = none ∧
    (index.loadAll mapStorage cacheWithCarMeta).1.1.length = 1 ∧
    (cache.Flush mapStorage cacheWithCarMeta).2.index.count carGVK = 1 :=
  have h := cache_Flush_writes_every_entry mapStorage cacheWithCarMeta rfl
  ⟨rfl, h.1, h.2.2.2.1.2.2 carGVK⟩

/-! ## The GVK filter -/

/-- C10, at the filter for group `a/b`, version `c`, kind `K` and an object of group
`a`, version `b/c`, kind `K`: the two GVKs differ, both render as `a/b/c, Kind=K`, and
`Filter` returns `(true, nil)`. -/
theorem GvkFilter_Filter_matches_distinct_GVK :
    slashGroupGVK ≠ slashVersionGVK ∧
    slashGroupGVK.toString = "a/b/c, Kind=K" ∧
    slashVersionGVK.toString = "a/b/c, Kind=K" ∧
    GvkFilter.Filter ⟨some slashGroupGVK⟩ { car with gvk := slashVersionGVK } = (true, none) := by
  refine ⟨?_, ?_, ?_, ?_⟩ <;> decide

theorem GvkFilter.Filter_of_eq (gvk : GroupVersionKind) (obj : Object) (h : obj.gvk = gvk) :
    GvkFilter.Filter ⟨some gvk⟩ obj = (true, none) := by
  simp [GvkFilter.Filter, h]

theorem append_cons_cancel_of_not_mem {α : Type} (c : α) :
    ∀ (a b x y : List α), c ∉ a → c ∉ b → a ++ c :: x = b ++ c :: y → a = b ∧ x = y
  | [], [], x, y, _, _, h => by simpa using h
  | [], d :: b, x, y, _, hb, h => by
    simp only [List.nil_append, List.cons_append, List.cons.injEq] at h
    exact absurd (List.mem_cons.mpr (Or.inl h.1)) hb
  | d :: a, [], x, y, ha, _, h => by
    simp only [List.nil_append, List.cons_append, List.cons.injEq] at h
    exact absurd (List.mem_cons.mpr (Or.inl h.1.symm)) ha
  | d :: a, e :: b, x, y, ha, hb, h => by
    simp only [List.cons_append, List.cons.injEq] at h
    have ih := append_cons_cancel_of_not_mem c a b x y
      (fun hm => ha (List.mem_cons_of_mem _ hm)) (fun hm => hb (List.mem_cons_of_mem _ hm)) h.2
    exact ⟨by rw [h.1, ih.1], ih.2⟩

theorem GroupVersionKind.toString_injective_of_wellformed (g1 g2 : GroupVersionKind)
    (hg1 : '/' ∉ g1.Group.data) (hg2 : '/' ∉ g2.Group.data)
    (hv1 : ',' ∉ g1.Version.data) (hv2 : ',' ∉ g2.Version.data)
    (h : g1.toString = g2.toString) : g1 = g2 := by
  obtain ⟨G1, V1, K1⟩ := g1
  obtain ⟨G2, V2, K2⟩ := g2
  have hd := congrArg String.data h
  simp only [GroupVersionKind.toString, String.data_append] at hd
  simp only [List.append_assoc, List.singleton_append, List.cons_append] at hd
  have h1 := append_cons_cancel_of_not_mem '/' _ _ _ _ hg1 hg2 hd
  have h2 := append_cons_cancel_of_not_mem ',' _ _ _ _ hv1 hv2 h1.2
  have h3 : K1.data = K2.data := by simpa using h2.2
  have hG : G1 = G2 := String.ext h1.1
  have hV : V1 = V2 := String.ext h2.1
  have hK : K1 = K2 := String.ext h3
  rw [hG, hV, hK]

/-- C11: `GvkFilter.Filter` returns an error exactly when the field `Gvk` is nil; then
the boolean is false and the error is `fmt.Errorf` of a message around
`ErrInvalidFilterParams`, so that `errors.Is` finds the sentinel; with a `Gvk` that is
set, the error is nil and the boolean is the comparison of the two renderings. -/
theorem GvkFilter_Filter_error_iff_nil (g : GvkFilter) (obj : Object) :
    ((g.Filter obj).2.isSome ↔ g.Gvk = none) ∧
    (g.Gvk = none →
      g.Filter obj
        = (false, some (.wrap "the GvkFilter.Gvk field must not be nil" ErrInvalidFilterParams)) ∧
      ∃ err, (g.Filter obj).2 = some err ∧ err.Is ErrInvalidFilterParams = true) ∧
    (∀ gvk, g.Gvk = some gvk →
      g.Filter obj = (decide (gvk.toString = obj.gvk.toString), none)) := by
  obtain ⟨gvk⟩ := g
  cases gvk with
  | none =>
    refine ⟨by simp [GvkFilter.Filter], fun _ => ⟨rfl, _, rfl, (by decide)⟩, ?_⟩
    intro gvk h
    cases h
  | some gvk =>
    refine ⟨by simp [GvkFilter.Filter], fun h => (by cases h), ?_⟩
    intro gvk1 h
    cases h
    rfl

theorem GvkFilter_Filter_error_iff_nil_witness :
    (GvkFilter.mk none).Gvk = none ∧
    (GvkFilter.mk (some carGVK)).Gvk = some carGVK ∧
    GvkFilter.Filter ⟨none⟩ car
      = (false, some (.wrap "the GvkFilter.Gvk field must not be nil" ErrInvalidFilterParams)) ∧
    GvkFilter.Filter ⟨some carGVK⟩ car = (true, none) :=
  ⟨rfl, rfl, ((GvkFilter_Filter_error_iff_nil ⟨none⟩ car).2.1 rfl).1,
    (GvkFilter_Filter_error_iff_nil ⟨some carGVK⟩ car).2.2 carGVK rfl⟩

/-! ## Backfilling metadata -/

/-- C13: for objects with non-empty UIDs, `index.storeAllMeta` returns nil; every
entry that the index held is unchanged (a full entry stays full), the index then holds
an entry for the GVK and UID of every object of the list, and the entry (or absence
of one) of a key that no object of the list has is unchanged. -/
theorem index_storeAllMeta_never_overwrites (i : index) (objs : Objects)
    (h : ∀ o ∈ objs, o.uid ≠ "") :
    ∃ i1, i.storeAllMeta objs = .ret (none, i1) ∧
      (∀ gvk uid co, i.entry gvk uid = some co → i1.entry gvk uid = some co) ∧
      (∀ o ∈ objs, (i1.entry o.gvk o.uid).isSome) ∧
      (∀ gvk uid, (∀ o ∈ objs, ¬ (gvk = o.gvk ∧ uid = o.uid)) →
        i1.entry gvk uid = i.entry gvk uid) := by
  induction objs generalizing i with
  | nil =>
    exact ⟨i, rfl, fun _ _ _ hc => hc, fun o ho => (by cases ho), fun _ _ _ => rfl⟩
  | cons obj rest ih =>
    have hrest : ∀ o ∈ rest, o.uid ≠ "" := fun o ho => h o (List.mem_cons_of_mem _ ho)
    have hobj : obj.uid ≠ "" := h obj (List.mem_cons_self _ _)
    by_cases hex : (i.entry obj.gvk obj.uid).isSome
    · obtain ⟨i1, h1, h2, h3, h4⟩ := ih i hrest
      refine ⟨i1, ?_, h2, ?_, ?_⟩
      · simp only [index.storeAllMeta, hex, if_true]
        exact h1
      · intro o ho
        rcases List.mem_cons.mp ho with rfl | ho
        · obtain ⟨co, hco⟩ := Option.isSome_iff_exists.mp hex
          rw [h2 _ _ co hco]
          rfl
        · exact h3 o ho
      · intro gvk uid hn
        exact h4 gvk uid (fun o ho => hn o (List.mem_cons_of_mem _ ho))
    · obtain ⟨i1, h1, h2, h3, h4⟩ := ih (i.put obj.gvk obj.uid ⟨obj, true⟩) hrest
      have hnone : i.entry obj.gvk obj.uid = none := by
        cases hc : i.entry obj.gvk obj.uid with
        | none => rfl
        | some co => simp [hc] at hex
      refine ⟨i1, ?_, ?_, ?_, ?_⟩
      · simp only [index.storeAllMeta, hex, index.storeMeta, store_eq_put _ _ _ hobj]
        exact h1
      · intro gvk uid co hco
        apply h2
        have hne : ¬ (gvk = obj.gvk ∧ uid = obj.uid) := by
          rintro ⟨rfl, rfl⟩
          rw [hnone] at hco
          cases hco
        rw [index.entry_put_ne _ _ _ _ _ _ hne]
        exact hco
      · intro o ho
        rcases List.mem_cons.mp ho with rfl | ho
        · rw [h2 _ _ _ (index.entry_put_same i o.gvk o.uid ⟨o, true⟩)]
          rfl
        · exact h3 o ho
      · intro gvk uid hn
        rw [h4 gvk uid (fun o ho => hn o (List.mem_cons_of_mem _ ho))]
        exact index.entry_put_ne _ _ _ _ _ _ (hn obj (List.mem_cons_self _ _))

theorem index_storeAllMeta_never_overwrites_witness :
    (∀ o ∈ [carMeta], o.uid ≠ "") ∧
    ∃ i1, (cache.Get mapStorage carKey (NewCache oneCar)).2.index.storeAllMeta [carMeta]
        = .ret (none, i1) ∧
      i1.entry carGVK car.uid = some ⟨car, false⟩ :=
  have hw : ∀ o ∈ [carMeta], o.uid ≠ "" := by decide
  have h := index_storeAllMeta_never_overwrites
    (cache.Get mapStorage carKey (NewCache oneCar)).2.index [carMeta] hw
  ⟨hw, h.elim fun i1 hi => ⟨i1, hi.1, hi.2.1 carGVK car.uid ⟨car, false⟩ (by decide)⟩⟩

/-! ## File extensions -/

theorem extForContentType_mem (order : List (String × ContentType)) (wanted : ContentType)
    (h : ∃ ext, (ext, wanted) ∈ order) : (extForContentType order wanted, wanted) ∈ order := by
  induction order with
  | nil =>
    obtain ⟨ext, he⟩ := h
    cases he
  | cons p rest ih =>
    obtain ⟨ext, ct⟩ := p
    unfold extForContentType
    by_cases hc : ct = wanted
    · simp [hc]
    · simp only [hc, if_false]
      obtain ⟨e, he⟩ := h
      rcases List.mem_cons.mp he with heq | hmem
      · simp only [Prod.mk.injEq] at heq
        exact absurd heq.2.symm hc
      · exact List.mem_cons_of_mem _ (ih ⟨e, hmem⟩)

theorem extForContentType_of_not_mem (order : List (String × ContentType))
    (wanted : ContentType) (h : ¬ ∃ ext, (ext, wanted) ∈ order) :
    extForContentType order wanted = "" := by
  induction order with
  | nil => rfl
  | cons p rest ih =>
    obtain ⟨ext, ct⟩ := p
    unfold extForContentType
    by_cases hc : ct = wanted
    · exact absurd ⟨ext, by simp [hc]⟩ h
    · simp only [hc, if_false]
      exact ih (fun ⟨e, he⟩ => h ⟨e, List.mem_cons_of_mem _ he⟩)

theorem extForContentType_of_perm (order : List (String × ContentType)) (wanted : ContentType)
    (hp : order.Perm ContentTypes) :
    ((∃ ext, ContentTypes.lookup ext = some wanted) →
      ContentTypes.lookup (extForContentType order wanted) = some wanted) ∧
    (extForContentType order wanted = "" ↔ ¬ ∃ ext, ContentTypes.lookup ext = some wanted) ∧
    extForContentType order ContentTypeJSON = ".json" := by
  have hlk : ∀ ext ct, ContentTypes.lookup ext = some ct ↔ (ext, ct) ∈ ContentTypes := by
    intro ext ct
    simp only [ContentTypes, List.lookup, List.mem_cons, Prod.mk.injEq, List.mem_singleton,
      List.mem_nil_iff, or_false]
    by_cases h1 : ext = ".json"
    · subst h1; simp [eq_comm]
    · by_cases h2 : ext = ".yaml"
      · subst h2; simp [eq_comm]
      · by_cases h3 : ext = ".yml"
        · subst h3; simp [eq_comm]
        · have e1 : (ext == ".json") = false := by simpa using h1
          have e2 : (ext == ".yaml") = false := by simpa using h2
          have e3 : (ext == ".yml") = false := by simpa using h3
          simp [e1, e2, e3, h1, h2, h3]
  have hmem : ∀ ext ct, (ext, ct) ∈ order ↔ (ext, ct) ∈ ContentTypes :=
    fun ext ct => hp.mem_iff
  have hex : (∃ ext, ContentTypes.lookup ext = some wanted) ↔ ∃ ext, (ext, wanted) ∈ order := by
    constructor
    · rintro ⟨e, he⟩
      exact ⟨e, (hmem e wanted).mpr ((hlk e wanted).mp he)⟩
    · rintro ⟨e, he⟩
      exact ⟨e, (hlk e wanted).mpr ((hmem e wanted).mp he)⟩
  refine ⟨?_, ?_, ?_⟩
  · intro h
    exact (hlk _ _).mpr ((hmem _ _).mp (extForContentType_mem order wanted (hex.mp h)))
  · constructor
    · intro he h
      have := (hmem _ _).mp (extForContentType_mem order wanted (hex.mp h))
      rw [he] at this
      revert this
      simp [ContentTypes]
    · intro h
      exact extForContentType_of_not_mem order wanted (fun h1 => h (hex.mpr h1))
  · have := (hmem _ _).mp (extForContentType_mem order ContentTypeJSON
      ⟨".json", (hmem _ _).mpr (by simp [ContentTypes])⟩)
    simp only [ContentTypes, List.mem_cons, Prod.mk.injEq, List.mem_singleton,
      List.mem_nil_iff, or_false] at this
    rcases this with h | h | h
    · exact h.1
    · exact absurd h.2 (by decide)
    · exact absurd h.2 (by decide)

/-- C14, for the content type YAML: `ymlFirst` and the order of the source text are two
iteration orders of the table `ContentTypes`; under the first `extForContentType`
returns `.yml`, under the second `.yaml`. -/
theorem extForContentType_YAML_depends_on_order :
    ymlFirst.Perm ContentTypes ∧
    extForContentType ContentTypes ContentTypeYAML = ".yaml" ∧
    extForContentType ymlFirst ContentTypeYAML = ".yml" ∧
    ContentTypes.lookup ".yaml" = some ContentTypeYAML ∧
    ContentTypes.lookup ".yml" = some ContentTypeYAML := by
  refine ⟨?_, ?_, ?_, ?_, ?_⟩ <;> decide

/-! ## The patch engine -/

theorem Fields.lookup_of_not_hasKey (fs : Fields) (k : String) (h : fs.hasKey k = false) :
    fs.lookup k = none := by
  unfold Fields.hasKey at h
  cases hl : fs.lookup k with
  | none => rfl
  | some v => simp [hl] at h

theorem Fields.wf_cons {key : String} {value : Json} {rest : Fields}
    (h : (Fields.cons key value rest).wf = true) :
    rest.hasKey key = false ∧ value.wf = true ∧ rest.wf = true := by
  unfold Fields.wf at h
  simp only [Bool.and_eq_true, Bool.not_eq_true'] at h
  exact ⟨h.1.1, h.1.2, h.2⟩

theorem lookup_diffFields (OF : Fields) :
    ∀ (mf : Fields) (k : String), mf.wf = true →
      (diffFields OF mf).lookup k
        = match mf.lookup k with
          | none => none
          | some vm =>
            match OF.lookup k with
            | none => some vm
            | some vo => if vo = vm then none else some (diffValue vo vm)
  | .nil, k, _ => by simp [diffFields, Fields.lookup]
  | .cons key vm rest, k, h => by
    obtain ⟨hk, _, hrest⟩ := Fields.wf_cons h
    have ih := lookup_diffFields OF rest k hrest
    by_cases hkey : key = k
    · subst hkey
      have hnone : rest.lookup key = none := Fields.lookup_of_not_hasKey rest key hk
      rw [hnone] at ih
      simp only at ih
      unfold diffFields
      cases hO : OF.lookup key with
      | none => simp [Fields.lookup]
      | some vo =>
        by_cases heq : vo = vm
        · simp [heq, Fields.lookup, ih]
        · simp [heq, Fields.lookup]
    · unfold diffFields
      cases hO : OF.lookup key with
      | none => simp [Fields.lookup, hkey, ih]
      | some vo =>
        by_cases heq : vo = vm
        · simp [heq, Fields.lookup, hkey, ih]
        · simp [heq, Fields.lookup, hkey, ih]

theorem Fields.hasKey_cons (key : String) (value : Json) (rest : Fields) (k : String) :
    (Fields.cons key value rest).hasKey k = (decide (key = k) || rest.hasKey k) := by
  by_cases h : key = k <;> simp [Fields.hasKey, Fields.lookup, h]

theorem newFields_diffFields_of_new (OF : Fields) :
    ∀ (mf : Fields), (∀ k, mf.hasKey k = true → OF.hasKey k = false) →
      newFields OF (diffFields OF mf) = mf
  | .nil, _ => rfl
  | .cons key vm rest, h => by
    have hk : OF.hasKey key = false := h key (by simp [Fields.hasKey_cons])
    have hl := Fields.lookup_of_not_hasKey OF key hk
    have ih := newFields_diffFields_of_new OF rest
      (fun k hk => h k (by simp [Fields.hasKey_cons, hk]))
    simp [diffFields, hl, newFields, hk, ih]

theorem hasKey_of_dropAligned :
    ∀ (of mf : Fields) (k : String), (dropAligned of mf).hasKey k = true → mf.hasKey k = true
  | .nil, _, _, h => h
  | .cons _ _ _, .nil, _, h => h
  | .cons _ _ orest, .cons key2 vm mrest, k, h => by
    have := hasKey_of_dropAligned orest mrest k h
    simp [Fields.hasKey_cons, this]

theorem not_hasKey_of_dropAligned :
    ∀ (of mf : Fields), Fields.mutatedTo of mf = true → mf.wf = true →
      ∀ k, (dropAligned of mf).hasKey k = true → of.hasKey k = false
  | .nil, _, _, _, _, _ => rfl
  | .cons _ _ _, .nil, hm, _, _, _ => by simp [Fields.mutatedTo] at hm
  | .cons key vo orest, .cons key2 vm mrest, hm, hwf, k, hk => by
    simp only [Fields.mutatedTo, Bool.and_eq_true, decide_eq_true_eq] at hm
    obtain ⟨⟨hkey, _⟩, hrest⟩ := hm
    obtain ⟨hnk, _, hwrest⟩ := Fields.wf_cons hwf
    have h1 : (dropAligned orest mrest).hasKey k = true := hk
    have h2 := not_hasKey_of_dropAligned orest mrest hrest hwrest k h1
    have h3 := hasKey_of_dropAligned orest mrest k h1
    have hne : key ≠ k := by
      rintro rfl
      rw [← hkey, h3] at hnk
      cases hnk
    simp [Fields.hasKey_cons, hne, h2]

theorem newFields_diffFields (OF : Fields) :
    ∀ (of mf : Fields), Fields.mutatedTo of mf = true →
      (∀ k, of.hasKey k = true → OF.hasKey k = true) →
      (∀ k, (dropAligned of mf).hasKey k = true → OF.hasKey k = false) →
      newFields OF (diffFields OF mf) = dropAligned of mf
  | .nil, mf, _, _, hd => newFields_diffFields_of_new OF mf hd
  | .cons _ _ _, .nil, hm, _, _ => by simp [Fields.mutatedTo] at hm
  | .cons key vo orest, .cons key2 vm mrest, hm, ho, hd => by
    simp only [Fields.mutatedTo, Bool.and_eq_true, decide_eq_true_eq] at hm
    obtain ⟨⟨hkey, _⟩, hrest⟩ := hm
    subst hkey
    have hk : OF.hasKey key = true := ho key (by simp [Fields.hasKey_cons])
    have ih := newFields_diffFields OF orest mrest hrest
      (fun k hk => ho k (by simp [Fields.hasKey_cons, hk])) hd
    have hsome : ∃ v, OF.lookup key = some v := by
      unfold Fields.hasKey at hk
      exact Option.isSome_iff_exists.mp hk
    obtain ⟨v, hv⟩ := hsome
    unfold diffFields
    simp only [hv]
    by_cases heq : v = vm
    · simp only [heq, if_true]
      exact ih
    · simp only [heq, if_false, newFields, hk, if_true]
      exact ih

theorem Fields.lookup_cons_of_hasKey_rest {key : String} {value : Json} {rest : Fields}
    (hk : rest.hasKey key = false) (k : String) (h : rest.hasKey k = true) :
    (Fields.cons key value rest).lookup k = rest.lookup k := by
  have hne : key ≠ k := by
    rintro rfl
    rw [h] at hk
    cases hk
  simp [Fields.lookup, hne]

mutual
theorem mergeValue_diffValue :
    ∀ (vo vm : Json), vo.wf = true → vm.wf = true → Json.mutatedTo vo vm = true →
      mergeValue vo (diffValue vo vm) = vm
  | .leaf _, .leaf _, _, _, _ => by simp [diffValue, mergeValue]
  | .leaf _, .obj _, _, _, _ => by simp [diffValue, mergeValue]
  | .obj _, .leaf _, _, _, _ => by simp [diffValue, mergeValue]
  | .obj of, .obj mf, hwo, hwm, hm => by
    have hwo1 : of.wf = true := by simpa [Json.wf] using hwo
    have hwm1 : mf.wf = true := by simpa [Json.wf] using hwm
    have hm1 : Fields.mutatedTo of mf = true := by simpa [Json.mutatedTo] using hm
    have hG := mergeFields_diffFields of mf of mf hwm1 hwo1 hwm1 hm1
      (fun _ _ => rfl) (fun _ _ => rfl)
    have hN := newFields_diffFields of of mf hm1 (fun _ h => h)
      (not_hasKey_of_dropAligned of mf hm1 hwm1)
    simp only [diffValue, mergeValue]
    rw [hN, hG]
theorem mergeFields_diffFields :
    ∀ (of mf OF MF : Fields), MF.wf = true → of.wf = true → mf.wf = true →
      Fields.mutatedTo of mf = true →
      (∀ k, of.hasKey k = true → OF.lookup k = of.lookup k) →
      (∀ k, mf.hasKey k = true → MF.lookup k = mf.lookup k) →
      (mergeFields of (diffFields OF MF)).append (dropAligned of mf) = mf
  | .nil, _, _, _, _, _, _, _, _, _ => by simp [mergeFields, Fields.append, dropAligned]
  | .cons _ _ _, .nil, _, _, _, _, _, hm, _, _ => by simp [Fields.mutatedTo] at hm
  | .cons key vo orest, .cons key2 vm mrest, OF, MF, hMF, hwo, hwm, hm, hO, hM => by
    simp only [Fields.mutatedTo, Bool.and_eq_true, decide_eq_true_eq] at hm
    obtain ⟨⟨hkey, hval⟩, hrest⟩ := hm
    subst hkey
    obtain ⟨hko, hvo, hwo1⟩ := Fields.wf_cons hwo
    obtain ⟨hkm, hvm, hwm1⟩ := Fields.wf_cons hwm
    have ih := mergeFields_diffFields orest mrest OF MF hMF hwo1 hwm1 hrest
      (fun k hk => by
        rw [hO k (by simp [Fields.hasKey_cons, hk])]
        exact Fields.lookup_cons_of_hasKey_rest hko k hk)
      (fun k hk => by
        rw [hM k (by simp [Fields.hasKey_cons, hk])]
        exact Fields.lookup_cons_of_hasKey_rest hkm k hk)
    have hOk : OF.lookup key = some vo := by
      rw [hO key (by simp [Fields.hasKey_cons])]
      simp [Fields.lookup]
    have hMk : MF.lookup key = some vm := by
      rw [hM key (by simp [Fields.hasKey_cons])]
      simp [Fields.lookup]
    have hP := lookup_diffFields OF MF key hMF
    rw [hMk, hOk] at hP
    simp only at hP
    unfold mergeFields
    by_cases heq : vo = vm
    · simp only [heq, if_true] at hP
      rw [hP]
      simp only [Fields.append, dropAligned]
      rw [ih, heq]
    · simp only [heq, if_false] at hP
      rw [hP]
      simp only [Fields.append, dropAligned]
      rw [ih, mergeValue_diffValue vo vm hvo hvm hval]
end

theorem Fields.wf_of_lookup :
    ∀ (fs : Fields) (k : String) (v : Json), fs.wf = true → fs.lookup k = some v → v.wf = true
  | .nil, _, _, _, h => by simp [Fields.lookup] at h
  | .cons key value rest, k, v, hw, h => by
    obtain ⟨_, hv, hr⟩ := Fields.wf_cons hw
    by_cases hk : key = k
    · simp only [Fields.lookup, hk, if_true, Option.some.injEq] at h
      rw [← h]
      exact hv
    · simp only [Fields.lookup, hk, if_false] at h
      exact Fields.wf_of_lookup rest k v hr h

theorem hasKey_of_mutatedTo :
    ∀ (of mf : Fields) (k : String), Fields.mutatedTo of mf = true → of.hasKey k = true →
      mf.hasKey k = true
  | .nil, _, _, _, h => by simp [Fields.hasKey, Fields.lookup] at h
  | .cons _ _ _, .nil, _, hm, _ => by simp [Fields.mutatedTo] at hm
  | .cons key vo orest, .cons key2 vm mrest, k, hm, h => by
    simp only [Fields.mutatedTo, Bool.and_eq_true, decide_eq_true_eq] at hm
    obtain ⟨⟨hkey, _⟩, hrest⟩ := hm
    subst hkey
    rw [Fields.hasKey_cons] at h ⊢
    by_cases hk : key = k
    · simp [hk]
    · simp only [hk, decide_False, Bool.false_or] at h ⊢
      exact hasKey_of_mutatedTo orest mrest k hrest h

theorem diffValue_at_differs :
    ∀ (p : List String) (O M v : Json), M.wf = true → p ≠ [] →
      (diffValue O M).at p = some v →
      O.at p ≠ M.at p ∧ ∀ l, v = .leaf l → M.at p = some (.leaf l)
  | [], _, _, _, _, hp, _ => absurd rfl hp
  | k :: p, O, .leaf lit, v, _, _, h => by
    simp [diffValue, Json.at] at h
  | k :: p, .leaf lit, .obj mf, v, _, _, h => by
    have h1 : (Json.obj mf).at (k :: p) = some v := by simpa [diffValue] using h
    refine ⟨?_, fun l hl => by rw [h1, hl]⟩
    rw [h1]
    simp [Json.at]
  | k :: p, .obj of, .obj mf, v, hw, _, h => by
    have hw1 : mf.wf = true := by simpa [Json.wf] using hw
    have hP := lookup_diffFields of mf k hw1
    simp only [diffValue, Json.at] at h ⊢
    cases hM : mf.lookup k with
    | none =>
      rw [hM] at hP
      simp only at hP
      rw [hP] at h
      cases h
    | some vm =>
      rw [hM] at hP
      simp only at hP
      cases hO : of.lookup k with
      | none =>
        rw [hO] at hP
        simp only at hP
        rw [hP] at h
        simp only at h ⊢
        refine ⟨?_, fun l hl => by rw [h, hl]⟩
        rw [h]
        simp
      | some vo =>
        rw [hO] at hP
        simp only at hP
        by_cases heq : vo = vm
        · simp only [heq, if_true] at hP
          rw [hP] at h
          cases h
        · simp only [heq, if_false] at hP
          rw [hP] at h
          simp only at h ⊢
          cases p with
          | nil =>
            simp only [Json.at, Option.some.injEq] at h ⊢
            refine ⟨fun hc => heq (Option.some.inj hc), fun l hl => ?_⟩
            rw [hl] at h
            cases vm with
            | leaf l2 =>
              simp only [diffValue, Json.leaf.injEq] at h
              rw [h]
            | obj mf2 =>
              cases vo <;> simp [diffValue] at h
          | cons k2 p2 =>
            exact diffValue_at_differs (k2 :: p2) vo vm v
              (Fields.wf_of_lookup mf k vm hw1 hM) (by simp) h

theorem Fields.lookup_append :
    ∀ (fs gs : Fields) (k : String),
      (fs.append gs).lookup k
        = match fs.lookup k with
          | some v => some v
          | none => gs.lookup k
  | .nil, _, _ => by simp [Fields.append, Fields.lookup]
  | .cons key value rest, gs, k => by
    by_cases hk : key = k
    · simp [Fields.append, Fields.lookup, hk]
    · simp [Fields.append, Fields.lookup, hk, Fields.lookup_append rest gs k]

theorem lookup_mergeFields :
    ∀ (bf pf : Fields) (k : String),
      (mergeFields bf pf).lookup k
        = match bf.lookup k with
          | none => none
          | some bv =>
            match pf.lookup k with
            | none => some bv
            | some pv => some (mergeValue bv pv)
  | .nil, _, _ => by simp [mergeFields, Fields.lookup]
  | .cons key bv rest, pf, k => by
    have ih := lookup_mergeFields rest pf k
    unfold mergeFields
    by_cases hk : key = k
    · subst hk
      cases hp : pf.lookup key <;> simp [Fields.lookup]
    · cases hp : pf.lookup key <;> simp [Fields.lookup, hk, ih]

theorem lookup_newFields (bf : Fields) :
    ∀ (pf : Fields) (k : String),
      (newFields bf pf).lookup k = if bf.hasKey k = true then none else pf.lookup k
  | .nil, _ => by simp [newFields, Fields.lookup]
  | .cons key pv rest, k => by
    have ih := lookup_newFields bf rest k
    unfold newFields
    by_cases hb : bf.hasKey key = true
    · simp only [hb, if_true]
      rw [ih]
      by_cases hk : key = k
      · subst hk
        simp [hb]
      · simp [Fields.lookup, hk]
    · simp only [hb, if_false]
      by_cases hk : key = k
      · subst hk
        simp [Fields.lookup, hb]
      · simp [Fields.lookup, hk, ih]

theorem lookup_merged (bf pf : Fields) (k : String) :
    ((mergeFields bf pf).append (newFields bf pf)).lookup k
      = match bf.lookup k with
        | some bv =>
          match pf.lookup k with
          | none => some bv
          | some pv => some (mergeValue bv pv)
        | none => pf.lookup k := by
  rw [Fields.lookup_append, lookup_mergeFields, lookup_newFields]
  cases hb : bf.lookup k with
  | none => simp [Fields.hasKey, hb]
  | some bv => cases hp : pf.lookup k <;> simp

theorem mergeValue_at_overlay_leaf :
    ∀ (p : List String) (O M : Json) (l : String), M.wf = true →
      (diffValue O M).at p = some (.leaf l) →
      (mergeValue O (diffValue O M)).at p = some (.leaf l)
  | [], O, M, l, _, h => by
    simp only [Json.at, Option.some.injEq] at h ⊢
    rw [h]
    cases O <;> simp [mergeValue]
  | k :: p, O, .leaf lit, l, _, h => by
    simp [diffValue, Json.at] at h
  | k :: p, .leaf lit, .obj mf, l, _, h => by
    simpa [diffValue, mergeValue] using h
  | k :: p, .obj of, .obj mf, l, hw, h => by
    have hw1 : mf.wf = true := by simpa [Json.wf] using hw
    have hP := lookup_diffFields of mf k hw1
    simp only [diffValue, mergeValue, Json.at] at h ⊢
    rw [lookup_merged]
    cases hpk : (diffFields of mf).lookup k with
    | none =>
      rw [hpk] at h
      cases h
    | some pv =>
      rw [hpk] at h
      simp only at h
      cases hO : of.lookup k with
      | none =>
        simp only
        exact h
      | some vo =>
        simp only
        rw [hpk, hO] at hP
        cases hM : mf.lookup k with
        | none =>
          rw [hM] at hP
          cases hP
        | some vm =>
          rw [hM] at hP
          simp only at hP
          by_cases heq : vo = vm
          · simp [heq] at hP
          · simp only [heq, if_false, Option.some.injEq] at hP
            subst hP
            exact mergeValue_at_overlay_leaf p vo vm l
              (Fields.wf_of_lookup mf k vm hw1 hM) h

theorem mergeValue_at_other_field (of pf : Fields) (k : String)
    (h : (Json.obj pf).at [k] = none) :
    (mergeValue (.obj of) (.obj pf)).at [k] = (Json.obj of).at [k] := by
  simp only [Json.at, mergeValue] at h ⊢
  rw [lookup_merged]
  cases hp : pf.lookup k with
  | none => cases hO : of.lookup k <;> simp
  | some pv => simp [hp] at h

theorem Json.at_append :
    ∀ (p q : List String) (j : Json), j.at (p ++ q) = (j.at p).bind fun v => v.at q
  | [], q, j => by simp [Json.at]
  | k :: p, q, .leaf _ => by simp [Json.at]
  | k :: p, q, .obj fs => by
    simp only [List.cons_append, Json.at]
    cases fs.lookup k with
    | none => rfl
    | some v => exact Json.at_append p q v

theorem Json.at_under_leaf (j : Json) (p : List String) (l k : String) (r : List String)
    (h : j.at p = some (.leaf l)) : j.at (p ++ k :: r) = none := by
  rw [Json.at_append, h]
  simp [Json.at]

theorem mergeValue_at_untouched :
    ∀ (p : List String) (base pv : Json) (pf : Fields) (k : String) (r : List String),
      pv.at p = some (.obj pf) → pf.lookup k = none →
      (mergeValue base pv).at (p ++ k :: r) = base.at (p ++ k :: r)
  | [], .leaf _, pv, pf, k, r, h, hk => by
    simp only [Json.at, Option.some.injEq] at h
    subst h
    simp [mergeValue, Json.at, hk]
  | [], .obj bf, pv, pf, k, r, h, hk => by
    simp only [Json.at, Option.some.injEq] at h
    subst h
    simp only [List.nil_append, mergeValue, Json.at]
    rw [lookup_merged, hk]
    cases bf.lookup k <;> rfl
  | k0 :: p, base, .leaf _, pf, k, r, h, _ => by simp [Json.at] at h
  | k0 :: p, .leaf _, .obj pf0, pf, k, r, h, hk => by
    have h1 := Json.at_append (k0 :: p) (k :: r) (.obj pf0)
    rw [h] at h1
    simp only [mergeValue]
    rw [h1]
    simp [Json.at, hk]
  | k0 :: p, .obj bf, .obj pf0, pf, k, r, h, hk => by
    simp only [Json.at] at h
    simp only [List.cons_append, mergeValue, Json.at]
    rw [lookup_merged]
    cases hp : pf0.lookup k0 with
    | none =>
      rw [hp] at h
      cases h
    | some pv1 =>
      rw [hp] at h
      simp only at h
      cases hb : bf.lookup k0 with
      | none =>
        simp only
        have h1 := Json.at_append p (k :: r) pv1
        rw [h] at h1
        have h2 : pv1.at (p ++ k :: r) = none := by
          rw [h1]
          simp [Json.at, hk]
        exact h2
      | some bv =>
        simp only
        exact mergeValue_at_untouched p bv pv1 pf k r h hk

theorem diffValue_at_obj :
    ∀ (p : List String) (O M : Json) (pf : Fields), M.wf = true →
      (diffValue O M).at p = some (.obj pf) →
      (∃ mf1, M.at p = some (.obj mf1)) ∧
      ∃ rf, (mergeValue O (diffValue O M)).at p = some (.obj rf)
  | [], O, .leaf _, pf, _, h => by simp [diffValue, Json.at] at h
  | [], .leaf _, .obj mf, pf, _, _ => by simp [diffValue, mergeValue, Json.at]
  | [], .obj of, .obj mf, pf, _, _ => by simp [diffValue, mergeValue, Json.at]
  | k :: p, O, .leaf _, pf, _, h => by simp [diffValue, Json.at] at h
  | k :: p, .leaf _, .obj mf, pf, _, h => by
    have h1 : (Json.obj mf).at (k :: p) = some (.obj pf) := by simpa [diffValue] using h
    exact ⟨⟨pf, h1⟩, ⟨pf, by simpa [diffValue, mergeValue] using h1⟩⟩
  | k :: p, .obj of, .obj mf, pf, hw, h => by
    have hw1 : mf.wf = true := by simpa [Json.wf] using hw
    have hP := lookup_diffFields of mf k hw1
    simp only [diffValue, mergeValue, Json.at] at h ⊢
    rw [lookup_merged]
    cases hpk : (diffFields of mf).lookup k with
    | none =>
      rw [hpk] at h
      cases h
    | some pv =>
      rw [hpk] at h hP
      simp only at h
      cases hM : mf.lookup k with
      | none =>
        rw [hM] at hP
        cases hP
      | some vm =>
        rw [hM] at hP
        simp only at hP ⊢
        cases hO : of.lookup k with
        | none =>
          rw [hO] at hP
          simp only [Option.some.injEq] at hP
          subst hP
          simp only
          exact ⟨⟨pf, h⟩, ⟨pf, h⟩⟩
        | some vo =>
          rw [hO] at hP
          simp only at hP ⊢
          by_cases heq : vo = vm
          · simp [heq] at hP
          · simp only [heq, if_false, Option.some.injEq] at hP
            subst hP
            exact diffValue_at_obj p vo vm pf (Fields.wf_of_lookup mf k vm hw1 hM) h
/-- C12 as stated fails on "Apply succeeds".  For `O` with the fields `a`, `c` and the
mutation `M` that sets a field `b` between them, the overlay holds `b` alone and the
merge lists `b` last, so it is not the document `M`; for `O` with the fields `a`, `b`
and the mutation that changes `a` and drops `b`, the overlay holds `a` alone and the
merge keeps `b`, so it is neither state.  With a serializer whose target type has
exactly the two states, `Apply` reports a decode error in both cases. -/
theorem patch_Apply_decode_error :
    Create acDoc (fun _ => abcDoc) = .obj (.cons "b" (.leaf "2") .nil) ∧
    mergeValue acDoc (Create acDoc (fun _ => abcDoc))
      = .obj (.cons "a" (.leaf "1") (.cons "c" (.leaf "3") (.cons "b" (.leaf "2") .nil))) ∧
    decodesStates acDoc abcDoc carGVK acDoc = true ∧
    decodesStates acDoc abcDoc carGVK abcDoc = true ∧
    Apply (decodesStates acDoc abcDoc) acDoc (Create acDoc (fun _ => abcDoc)) carGVK
      = .error .decodeError ∧
    Create abDoc (fun _ => aDoc) = aDoc ∧
    mergeValue abDoc (Create abDoc (fun _ => aDoc))
      = .obj (.cons "a" (.leaf "3") (.cons "b" (.leaf "2") .nil)) ∧
    decodesStates abDoc aDoc carGVK aDoc = true ∧
    Apply (decodesStates abDoc aDoc) abDoc (Create abDoc (fun _ => aDoc)) carGVK
      = .error .decodeError := by
  refine ⟨by decide, by decide, by decide, by decide, ?_, by decide, by decide, by decide, ?_⟩
  · have h : decodesStates acDoc abcDoc carGVK
        (mergeValue acDoc (Create acDoc (fun _ => abcDoc))) = false := by decide
    simp [Apply, h]
  · have h : decodesStates abDoc aDoc carGVK
        (mergeValue abDoc (Create abDoc (fun _ => aDoc))) = false := by decide
    simp [Apply, h]

/-- C12, amended: let `O` be an object and `M` its mutated copy, with distinct field
names, and let the merge be the overlay `Create(O, mutateFn) = Diff(O, M)` merged onto
`O`.  The overlay holds only fields that differ: at every path it reaches, the values of
`O` and `M` differ.  The merge equals `M` on the fields of the overlay: where the overlay
holds a scalar or array, `M` and the merge hold it too, and nothing lies below it in
either; where the overlay holds an object, `M` and the merge hold objects.  The merge
equals `O` on all other fields: at and below every field that an object of the overlay
does not have, at any depth, the merge is as `O`.  `Apply` returns the merge when the
serializer decodes it into the target type, and a decode error otherwise.  When `M`
keeps the fields of `O` in their order (with the same or other values, further fields
after them), the merge is `M` itself and `Apply` succeeds with `M` as soon as the
serializer decodes `M`. -/
theorem patch_round_trip (decodes : GroupVersionKind → Json → Bool) (typeKey : GroupVersionKind)
    (of mf : Fields) (mutateFn : Json → Json) (hf : mutateFn (.obj of) = .obj mf)
    (hM : mf.wf = true) :
    Create (.obj of) mutateFn = .obj (diffFields of mf) ∧
    (∀ p v, p ≠ [] → (Create (.obj of) mutateFn).at p = some v →
      (Json.obj of).at p ≠ (Json.obj mf).at p) ∧
    (∀ p l, (Create (.obj of) mutateFn).at p = some (.leaf l) →
      (Json.obj mf).at p = some (.leaf l) ∧
      (mergeValue (.obj of) (Create (.obj of) mutateFn)).at p = some (.leaf l) ∧
      ∀ k r, (Json.obj mf).at (p ++ k :: r) = none ∧
        (mergeValue (.obj of) (Create (.obj of) mutateFn)).at (p ++ k :: r) = none) ∧
    (∀ p pf, (Create (.obj of) mutateFn).at p = some (.obj pf) →
      (∃ mf1, (Json.obj mf).at p = some (.obj mf1)) ∧
      ∃ rf, (mergeValue (.obj of) (Create (.obj of) mutateFn)).at p = some (.obj rf)) ∧
    (∀ p pf k r, (Create (.obj of) mutateFn).at p = some (.obj pf) → pf.lookup k = none →
      (mergeValue (.obj of) (Create (.obj of) mutateFn)).at (p ++ k :: r)
        = (Json.obj of).at (p ++ k :: r)) ∧
    ((decodes typeKey (mergeValue (.obj of) (Create (.obj of) mutateFn)) = true →
        Apply decodes (.obj of) (Create (.obj of) mutateFn) typeKey
          = .ok (mergeValue (.obj of) (Create (.obj of) mutateFn))) ∧
      (decodes typeKey (mergeValue (.obj of) (Create (.obj of) mutateFn)) = false →
        Apply decodes (.obj of) (Create (.obj of) mutateFn) typeKey = .error .decodeError)) ∧
    (of.wf = true → Fields.mutatedTo of mf = true →
      mergeValue (.obj of) (Create (.obj of) mutateFn) = .obj mf ∧
      (decodes typeKey (.obj mf) = true →
        Apply decodes (.obj of) (Create (.obj of) mutateFn) typeKey = .ok (.obj mf))) := by
  have hc : Create (.obj of) mutateFn = diffValue (.obj of) (.obj mf) := by
    simp [Create, Diff, hf]
  have hMw : (Json.obj mf).wf = true := by simpa [Json.wf] using hM
  have hleafM : ∀ p l, (diffValue (.obj of) (.obj mf)).at p = some (.leaf l) →
      (Json.obj mf).at p = some (.leaf l) := by
    intro p l hv
    cases p with
    | nil => simp [diffValue, Json.at] at hv
    | cons k p =>
      exact (diffValue_at_differs (k :: p) (.obj of) (.obj mf) (.leaf l) hMw (by simp) hv).2
        l rfl
  rw [hc]
  refine ⟨by simp [diffValue], ?_, ?_, ?_, ?_, ⟨?_, ?_⟩, ?_⟩
  · intro p v hp hv
    exact (diffValue_at_differs p (.obj of) (.obj mf) v hMw hp hv).1
  · intro p l hv
    have h1 := hleafM p l hv
    have h2 := mergeValue_at_overlay_leaf p (.obj of) (.obj mf) l hMw hv
    exact ⟨h1, h2, fun k r => ⟨Json.at_under_leaf _ p l k r h1, Json.at_under_leaf _ p l k r h2⟩⟩
  · intro p pf hv
    exact diffValue_at_obj p (.obj of) (.obj mf) pf hMw hv
  · intro p pf k r hv hk
    exact mergeValue_at_untouched p (.obj of) _ pf k r hv hk
  · intro hd
    simp [Apply, hd]
  · intro hd
    simp [Apply, hd]
  · intro hO hmut
    have hrt : mergeValue (.obj of) (diffValue (.obj of) (.obj mf)) = .obj mf :=
      mergeValue_diffValue (.obj of) (.obj mf) (by simpa [Json.wf] using hO) hMw
        (by simpa [Json.mutatedTo] using hmut)
    refine ⟨hrt, fun hdec => ?_⟩
    simp [Apply, hrt, hdec]

theorem patch_round_trip_witness :
    setSpeed (.obj carFields) = .obj (carFields.append statusFields) ∧
    carFields.wf = true ∧ (carFields.append statusFields).wf = true ∧
    Fields.mutatedTo carFields (carFields.append statusFields) = true ∧
    Create carDoc setSpeed = overlayDoc ∧
    Apply (fun _ doc => doc.wf) carDoc overlayDoc carGVK = .ok (setSpeed carDoc) ∧
    (mergeValue carDoc overlayDoc).at ["status", "speed"] = some (.leaf "24.7") ∧
    (mergeValue carDoc overlayDoc).at ["spec", "engine"] = carDoc.at ["spec", "engine"] :=
  have h := patch_round_trip (fun _ doc => doc.wf) carGVK carFields
    (carFields.append statusFields) setSpeed rfl (by decide)
  ⟨rfl, by decide, by decide, by decide, h.1,
    (h.2.2.2.2.2.2 (by decide) (by decide)).2 (by decide),
    (h.2.2.1 ["status", "speed"] "24.7" (by decide)).2.1,
    h.2.2.2.2.1 [] statusFields "spec" ["engine"] (by decide) (by decide)⟩

end Libgitops
